import Mathlib

/-!
Verification of the lsbasi calculator core (src/lib.rs): a character-class
tokenizer and a strict left-to-right evaluator over the alphabet
0-9, space, + - * /, newline.

Modelling conventions:
* Rust `panic!` / `unreachable!` (and the panic inside `detect_char_type`)
  are modelled by `Option`: a result of `none` means the Rust program
  aborts with a panic instead of returning.
* `i64` is modelled as `Int` normalised through `wrap64` (two's-complement
  wrap-around at 64 bits, the semantics of `+= -= *=` when overflow checks
  are disabled); `i64` division additionally panics on the one overflowing
  case `i64::MIN / -1`, which is modelled by `none`.
* `str::parse::<i64>` is modelled by `parseI64`: optional sign, a nonempty
  digit run, and a signed 64-bit range check.
-/

/-- The Rust enum `Type` of character / token classes (named `TokType`
here because `Type` is reserved in Lean). -/
inductive TokType where
  | Whitespace
  | Integer
  | Minus
  | Plus
  | Mul
  | Div
  | Eof
deriving DecidableEq, Repr

/-- The Rust struct `Token`: a class together with the text that produced it. -/
structure Token where
  _type : TokType
  value : Option String
deriving DecidableEq, Repr

/-- Rust `Token::is_ops`. -/
def Token.is_ops (t : Token) : Bool :=
  match t._type with
  | TokType.Minus | TokType.Plus | TokType.Mul | TokType.Div => true
  | _ => false

/-- Rust `Token::is_eof`. -/
def Token.is_eof (t : Token) : Bool :=
  t._type == TokType.Eof

/-- Rust `detect_char_type`: classify one character; the `panic!("Parse error!")`
arm for characters outside the accepted alphabet is modelled by `none`. -/
def detect_char_type (item : Char) : Option TokType :=
  if '0' ≤ item ∧ item ≤ '9' then some TokType.Integer
  else if item = ' ' then some TokType.Whitespace
  else if item = '-' then some TokType.Minus
  else if item = '+' then some TokType.Plus
  else if item = '*' then some TokType.Mul
  else if item = '/' then some TokType.Div
  else if item = '\n' then some TokType.Eof
  else none

/-- Rust `Interpreter::tokenize`, written as a single left-to-right pass.
The Rust inner `while let` loop accumulates the current run `val` of
identically-classified characters and uses one-character lookahead
(`chars.peek()`) to decide when to emit the accumulated token; here the
pending run is carried in `st` into the next step, which is the same
lookahead decision. A pending pair `(t, val)` means the scanner is inside
a run of class `t` with accumulated text `val`:
* at the end of input a pending run is emitted (Rust: `peek()` is `None`,
  so the `is_none` test fires);
* a next character of the same class extends the run;
* a next character of a different class emits the pending token and then
  starts over on that character (whitespace is consumed without starting
  a token, exactly like the `continue` in the Rust loop);
* classifying any character outside the alphabet panics (`none`), which
  matches the panic occurring inside `chars.peek().map(detect_char_type)`.
-/
def tokenizeGo (st : Option (TokType × List Char)) : List Char → Option (List Token)
  | [] =>
    match st with
    | none => some []
    | some (t, val) => some [{ _type := t, value := some (String.mk val) }]
  | c :: rest =>
    match detect_char_type c with
    | none => none
    | some t2 =>
      match st with
      | none =>
        if t2 = TokType.Whitespace then tokenizeGo none rest
        else tokenizeGo (some (t2, [c])) rest
      | some (t, val) =>
        if t2 = t then tokenizeGo (some (t, val ++ [c])) rest
        else if t2 = TokType.Whitespace then
          (tokenizeGo none rest).map ({ _type := t, value := some (String.mk val) } :: ·)
        else
          (tokenizeGo (some (t2, [c])) rest).map
            ({ _type := t, value := some (String.mk val) } :: ·)

/-- Rust `Interpreter::tokenize` on a whole string; `none` = panic. -/
def tokenize (s : String) : Option (List Token) :=
  tokenizeGo none s.data

/-- The Rust `Error` type. `inner` is `Repr::Inner` (from `Error::with_message`),
`noneUnwrap` is `Repr::NoneError` (the `?` on a `None` token value), and
`parseFailure` is `Repr::Other` holding the `ParseIntError` from `str::parse`. -/
inductive Error where
  | inner : String → Error
  | noneUnwrap : Error
  | parseFailure : Error
deriving DecidableEq, Repr

deriving instance DecidableEq for Except

/-- Rust `Error::with_message`. -/
def Error.with_message (message : String) : Error :=
  Error.inner message

/-- Signed 64-bit bounds. -/
def i64Min : Int := -(2 ^ 63)

/-- Largest `i64` value. -/
def i64Max : Int := 2 ^ 63 - 1

/-- Two's-complement wrap-around into the `i64` range. -/
def wrap64 (x : Int) : Int :=
  (x + 2 ^ 63) % 2 ^ 64 - 2 ^ 63

/-- Numeric value of one ASCII digit, `none` for any other character. -/
def digitVal (c : Char) : Option Nat :=
  if '0' ≤ c ∧ c ≤ '9' then some (c.toNat - '0'.toNat) else none

/-- Accumulating base-10 value of a digit list; `none` on a non-digit. -/
def digitsValAux (acc : Nat) : List Char → Option Nat
  | [] => some acc
  | c :: rest =>
    match digitVal c with
    | none => none
    | some d => digitsValAux (acc * 10 + d) rest

/-- Model of Rust `str::parse::<i64>()`: an optional `+`/`-` sign followed by
a nonempty run of ASCII digits whose signed value fits in `i64`. -/
def parseI64 (s : String) : Except Error Int :=
  match s.data with
  | [] => Except.error Error.parseFailure
  | c :: rest =>
    let sd : Int × List Char :=
      if c = '+' then (1, rest)
      else if c = '-' then (-1, rest)
      else (1, c :: rest)
    if sd.2.isEmpty then Except.error Error.parseFailure
    else
      match digitsValAux 0 sd.2 with
      | none => Except.error Error.parseFailure
      | some n =>
        let v : Int := sd.1 * n
        if i64Min ≤ v ∧ v ≤ i64Max then Except.ok v else Except.error Error.parseFailure

/-- Rust `parse_number`. -/
def parse_number (token : Token) : Except Error Int :=
  if token.is_ops || token._type == TokType.Eof || token._type == TokType.Whitespace then
    Except.error (Error.with_message "Evaluated text must be integer!")
  else
    match token.value with
    | none => Except.error Error.noneUnwrap
    | some s => parseI64 s

/-- The `while let Some(op) = stream.next()` loop of `Interpreter::evaluate`.
`first` is the running accumulator. `+= -= *=` wrap at 64 bits; `/=` checks
the divisor for zero first (returning the `Division by zero!` error) and
panics (`none`) on the single overflowing division `i64::MIN / -1`; i64
division truncates toward zero (`Int.tdiv`). The final catch-all arm is the
Rust `unreachable!()` panic. -/
def evalLoop (first : Int) : List Token → Option (Except Error (Option Int))
  | [] => some (Except.ok (some first))
  | op :: rest =>
    if op._type = TokType.Eof then some (Except.ok (some first))
    else if !op.is_ops then some (Except.error (Error.with_message "Item must be operand!"))
    else
      match rest with
      | [] => some (Except.error (Error.with_message "Unexpected end of stream"))
      | second :: rest2 =>
        match parse_number second with
        | Except.error e => some (Except.error e)
        | Except.ok s =>
          match op._type with
          | TokType.Plus => evalLoop (wrap64 (first + s)) rest2
          | TokType.Minus => evalLoop (wrap64 (first - s)) rest2
          | TokType.Mul => evalLoop (wrap64 (first * s)) rest2
          | TokType.Div =>
            if s = 0 then some (Except.error (Error.with_message "Division by zero!"))
            else if first = i64Min ∧ s = -1 then none
            else evalLoop (Int.tdiv first s) rest2
          | _ => none

/-- Body of `Interpreter::evaluate` after tokenization: the blank-line check,
the leading-operator check, parsing the first operand, and the loop. -/
def evalStream : List Token → Option (Except Error (Option Int))
  | [] => some (Except.ok none)
  | first :: rest =>
    if first.is_eof then some (Except.ok none)
    else if first.is_ops then
      some (Except.error (Error.with_message "Evaluated text must starts with integer!"))
    else
      match parse_number first with
      | Except.error e => some (Except.error e)
      | Except.ok v => evalLoop v rest

/-- Rust `Interpreter::evaluate`; `none` = the call panics. -/
def evaluate (s : String) : Option (Except Error (Option Int)) :=
  match tokenize s with
  | none => none
  | some stream => evalStream stream

/-! Specification-side vocabulary: characters of the accepted alphabet,
operators, digit runs, rendered operand/operator chains, and predicates on
token streams. These are used to state the claims; they are compared with
the evaluator, which is translated from the source above. -/

/-- A character the scanner classifies without panicking. -/
def ValidChar (c : Char) : Prop :=
  detect_char_type c ≠ none

instance (c : Char) : Decidable (ValidChar c) := by
  unfold ValidChar; infer_instance

/-- The four binary operators of the grammar. -/
inductive Op where
  | plus
  | minus
  | mul
  | div
deriving DecidableEq, Repr

/-- The character that renders an operator. -/
def Op.char : Op → Char
  | Op.plus => '+'
  | Op.minus => '-'
  | Op.mul => '*'
  | Op.div => '/'

/-- The token class of an operator. -/
def Op.tokType : Op → TokType
  | Op.plus => TokType.Plus
  | Op.minus => TokType.Minus
  | Op.mul => TokType.Mul
  | Op.div => TokType.Div

/-- The arithmetic the evaluator performs for one operator: wrap-around
64-bit addition, subtraction and multiplication, truncating division. -/
def Op.wrapApply : Op → Int → Int → Int
  | Op.plus, a, b => wrap64 (a + b)
  | Op.minus, a, b => wrap64 (a - b)
  | Op.mul, a, b => wrap64 (a * b)
  | Op.div, a, b => Int.tdiv a b

/-- Exact integer arithmetic for one operator (no wrap-around), with
truncating division; this is the spec-side meaning of `a op b`. -/
def Op.exactApply : Op → Int → Int → Int
  | Op.plus, a, b => a + b
  | Op.minus, a, b => a - b
  | Op.mul, a, b => a * b
  | Op.div, a, b => Int.tdiv a b

/-- Base-10 value of a digit run. -/
def digitsNat (ds : List Char) : Nat :=
  ds.foldl (fun a c => a * 10 + (c.toNat - 48)) 0

/-- A nonempty run of ASCII digits. -/
def IsDigitRun (ds : List Char) : Prop :=
  ds ≠ [] ∧ ∀ c ∈ ds, '0' ≤ c ∧ c ≤ '9'

instance (ds : List Char) : Decidable (IsDigitRun ds) := by
  unfold IsDigitRun; infer_instance

/-- The `Integer` token carrying a digit run. -/
def intToken (ds : List Char) : Token :=
  { _type := TokType.Integer, value := some (String.mk ds) }

/-- The single-character token of an operator. -/
def opToken (o : Op) : Token :=
  { _type := o.tokType, value := some (String.mk [o.char]) }

/-- The `EndOfInput` token produced by a single line terminator. -/
def eofToken : Token :=
  { _type := TokType.Eof, value := some (String.mk ['\n']) }

/-- Characters of a chain `d0 op1 d1 op2 d2 ...` with no spaces. -/
def chainChars (d0 : List Char) (rest : List (Op × List Char)) : List Char :=
  d0 ++ (rest.map fun p => p.1.char :: p.2).flatten

/-- Tokens of the operator/operand tail of a chain. -/
def chainOpTokens (rest : List (Op × List Char)) : List Token :=
  (rest.map fun p => [opToken p.1, intToken p.2]).flatten

/-- Left-to-right fold of a chain over the evaluator's arithmetic. -/
def chainFold (v : Int) (rest : List (Op × List Char)) : Int :=
  rest.foldl (fun a p => p.1.wrapApply a (digitsNat p.2)) v

/-- The tokens before the first `EndOfInput` token. -/
def preEof (ts : List Token) : List Token :=
  ts.takeWhile fun t => t._type != TokType.Eof

/-- Whether a `Div` token is immediately followed by an `Integer` token
whose numeric value is zero. -/
def hasDivZero : List Token → Bool
  | a :: b :: rest =>
    (a._type == TokType.Div && b._type == TokType.Integer
      && parse_number b == Except.ok 0) || hasDivZero (b :: rest)
  | _ => false

/-- Whether two `Integer` tokens are adjacent. -/
def hasIntInt : List Token → Bool
  | a :: b :: rest =>
    (a._type == TokType.Integer && b._type == TokType.Integer) || hasIntInt (b :: rest)
  | _ => false

/-- Concatenation of the texts of all tokens, in stream order. -/
def joinTexts (ts : List Token) : List Char :=
  (ts.map fun t => (t.value.getD "").data).flatten

/-- A run of characters destined to become one token: a preceding space
padding, the token class, and the characters of the run itself. -/
def PaddedRun : Type :=
  List Char × TokType × List Char

/-- Characters of a padded run list followed by a final padding. -/
def renderPadded (l : List PaddedRun) (padEnd : List Char) : List Char :=
  match l with
  | [] => padEnd
  | (p, _, r) :: rest => p ++ r ++ renderPadded rest padEnd

/-- The token a run produces. -/
def runToken (pr : PaddedRun) : Token :=
  { _type := pr.2.1, value := some (String.mk pr.2.2) }

/-- The same runs with all paddings removed. -/
def stripPads (l : List PaddedRun) : List PaddedRun :=
  l.map fun pr => ([], pr.2.1, pr.2.2)

/-- Well-formedness of one padded run: the padding is all spaces, the run
is a nonempty sequence of characters all classified as the run's class,
and the class is not `Whitespace`. -/
def RunOK (pr : PaddedRun) : Prop :=
  (∀ c ∈ pr.1, c = ' ') ∧ pr.2.2 ≠ [] ∧ pr.2.1 ≠ TokType.Whitespace ∧
    ∀ c ∈ pr.2.2, detect_char_type c = some pr.2.1

instance (pr : PaddedRun) : Decidable (RunOK pr) := by
  unfold RunOK; infer_instance

/-- Adjacent runs have different token classes. -/
def adjDistinct : List PaddedRun → Bool
  | (_, t1, _) :: (p2, t2, r2) :: rest => t1 != t2 && adjDistinct ((p2, t2, r2) :: rest)
  | _ => true

/-- The run decomposition of a terminated chain: the first operand run,
alternating operator and operand runs, and the final newline run. -/
def chainRuns (d0 : List Char) (rest : List (Op × List Char)) : List PaddedRun :=
  ([], TokType.Integer, d0) ::
    ((rest.map fun p => [([], p.1.tokType, [p.1.char]), ([], TokType.Integer, p.2)]).flatten
      ++ [([], TokType.Eof, ['\n'])])

/-- Invariant of the scanner's pending-run state: a pending run is nonempty,
is not whitespace, and holds exactly characters of its own class. -/
def StateOK : Option (TokType × List Char) → Prop
  | none => True
  | some (t, val) => t ≠ TokType.Whitespace ∧ val ≠ [] ∧ ∀ c ∈ val, detect_char_type c = some t

/-- The text accumulated in the scanner's pending-run state. -/
def stateVal : Option (TokType × List Char) → List Char
  | none => []
  | some (_, val) => val

/-- Case analysis of successful character classification. -/
theorem detect_cases {c : Char} {t : TokType} (h : detect_char_type c = some t) :
    (t = TokType.Integer ∧ '0' ≤ c ∧ c ≤ '9') ∨ (t = TokType.Whitespace ∧ c = ' ') ∨
    (t = TokType.Minus ∧ c = '-') ∨ (t = TokType.Plus ∧ c = '+') ∨
    (t = TokType.Mul ∧ c = '*') ∨ (t = TokType.Div ∧ c = '/') ∨
    (t = TokType.Eof ∧ c = '\n') := by
  unfold detect_char_type at h
  split_ifs at h <;> simp_all

/-- Only the space character classifies as `Whitespace`. -/
theorem detect_ws_iff {c : Char} :
    detect_char_type c = some TokType.Whitespace ↔ c = ' ' := by
  constructor
  · intro h
    rcases detect_cases h with h1 | h1 | h1 | h1 | h1 | h1 | h1 <;> simp_all
  · intro h; subst h; decide

/-- Only the newline character classifies as `Eof`. -/
theorem detect_eof_iff {c : Char} :
    detect_char_type c = some TokType.Eof ↔ c = '\n' := by
  constructor
  · intro h
    rcases detect_cases h with h1 | h1 | h1 | h1 | h1 | h1 | h1 <;> simp_all
  · intro h; subst h; decide

/-- Exactly the ASCII digits classify as `Integer`. -/
theorem detect_int_iff {c : Char} :
    detect_char_type c = some TokType.Integer ↔ ('0' ≤ c ∧ c ≤ '9') := by
  constructor
  · intro h
    rcases detect_cases h with h1 | h1 | h1 | h1 | h1 | h1 | h1 <;> simp_all
  · intro h
    unfold detect_char_type
    rw [if_pos h]

/-- On an all-digit list the accumulating value function succeeds and
computes the left fold of the usual base-10 step. -/
theorem digitsValAux_digits :
    ∀ (ds : List Char) (acc : Nat), (∀ c ∈ ds, '0' ≤ c ∧ c ≤ '9') →
      digitsValAux acc ds = some (ds.foldl (fun a c => a * 10 + (c.toNat - 48)) acc)
  | [], acc, _ => rfl
  | c :: rest, acc, h => by
    have hc : '0' ≤ c ∧ c ≤ '9' := h c (List.mem_cons_self c rest)
    have hd : digitVal c = some (c.toNat - 48) := by
      unfold digitVal
      rw [if_pos hc]
      rfl
    unfold digitsValAux
    rw [hd]
    simpa using digitsValAux_digits rest (acc * 10 + (c.toNat - 48))
      (fun x hx => h x (List.mem_cons_of_mem c hx))

/-- Parsing a nonempty digit run yields its base-10 value when that value
fits in `i64`, and a parse failure otherwise. -/
theorem parseI64_digits {ds : List Char} (h : IsDigitRun ds) :
    parseI64 (String.mk ds) =
      if (digitsNat ds : Int) ≤ i64Max then Except.ok ((digitsNat ds : Int))
      else Except.error Error.parseFailure := by
  obtain ⟨hne, hdig⟩ := h
  match ds, hne with
  | c :: rest, _ =>
    have hc : '0' ≤ c ∧ c ≤ '9' := hdig c (List.mem_cons_self c rest)
    have hcp : c ≠ '+' := by rintro rfl; revert hc; decide
    have hcm : c ≠ '-' := by rintro rfl; revert hc; decide
    have hval : digitsValAux 0 (c :: rest) = some (digitsNat (c :: rest)) := by
      rw [digitsValAux_digits (c :: rest) 0 hdig]
      rfl
    have hmin : i64Min ≤ ((digitsNat (c :: rest) : Int)) := by
      unfold i64Min
      have h0 : (0 : Int) ≤ (digitsNat (c :: rest) : Int) := Int.ofNat_nonneg _
      omega
    unfold parseI64
    simp only [if_neg hcp, if_neg hcm, List.isEmpty_cons, Bool.false_eq_true,
      if_false, hval, one_mul]
    by_cases hle : (digitsNat (c :: rest) : Int) ≤ i64Max
    · rw [if_pos ⟨hmin, hle⟩, if_pos hle]
    · rw [if_neg (by tauto), if_neg hle]

/-- A `parse_number` call on an `Integer`-class token just parses its text. -/
theorem parse_number_integer {t : Token} (hint : t._type = TokType.Integer)
    {s : String} (hval : t.value = some s) : parse_number t = parseI64 s := by
  unfold parse_number
  rw [hval]
  simp [Token.is_ops, hint]

/-- Parsing an `Integer` token that carries an in-range digit run. -/
theorem parse_number_intToken {ds : List Char} (h : IsDigitRun ds)
    (hle : (digitsNat ds : Int) ≤ i64Max) :
    parse_number (intToken ds) = Except.ok ((digitsNat ds : Int)) := by
  rw [parse_number_integer rfl rfl, parseI64_digits h, if_pos hle]

/-- A token the evaluator successfully parses as a number is an `Integer`
token. -/
theorem parse_number_ok_type {t : Token} {v : Int}
    (h : parse_number t = Except.ok v) : t._type = TokType.Integer := by
  cases ht : t._type <;>
    simp [parse_number, Token.is_ops, ht] at h ⊢

/-- A successfully parsed token whose text is a run of characters all
classified as the token's own class yields a value in `0..i64Max`. -/
theorem parse_number_good_nonneg {t : Token} {vl : List Char} {v : Int}
    (hval : t.value = some (String.mk vl))
    (hcl : ∀ c ∈ vl, detect_char_type c = some t._type)
    (h : parse_number t = Except.ok v) : 0 ≤ v ∧ v ≤ i64Max := by
  have hint : t._type = TokType.Integer := parse_number_ok_type h
  have hdig : ∀ c ∈ vl, '0' ≤ c ∧ c ≤ '9' := by
    intro c hc
    exact detect_int_iff.mp (hint ▸ hcl c hc)
  rw [parse_number_integer hint hval] at h
  cases vl with
  | nil => simp [parseI64] at h
  | cons c rest =>
    have hrun : IsDigitRun (c :: rest) := ⟨List.cons_ne_nil c rest, hdig⟩
    rw [parseI64_digits hrun] at h
    split_ifs at h with hle
    cases h
    exact ⟨Int.ofNat_nonneg _, hle⟩

/-- A character that classifies as a non-whitespace class is not a space. -/
theorem detect_nonws_char {c : Char} {t2 : TokType}
    (hc2 : detect_char_type c = some t2) (hw : t2 ≠ TokType.Whitespace) : c ≠ ' ' := by
  intro h
  subst h
  rw [show detect_char_type ' ' = some TokType.Whitespace from by decide] at hc2
  exact hw (Option.some.inj hc2).symm

/-- Master scanner lemma: on input whose characters all classify, the
scanner succeeds; the concatenated token texts are the pending text plus the
input with spaces removed; and every produced token is a nonempty
non-whitespace run of characters of the token's own class drawn from the
pending text or the input. -/
theorem tokenizeGo_spec (cs : List Char) :
    ∀ (st : Option (TokType × List Char)),
      (∀ c ∈ cs, detect_char_type c ≠ none) → StateOK st →
      ∃ ts, tokenizeGo st cs = some ts ∧
        joinTexts ts = stateVal st ++ cs.filter (fun c => c != ' ') ∧
        ∀ tok ∈ ts, tok._type ≠ TokType.Whitespace ∧
          ∃ v, tok.value = some (String.mk v) ∧ v ≠ [] ∧
            ∀ c ∈ v, detect_char_type c = some tok._type ∧ (c ∈ stateVal st ∨ c ∈ cs) := by
  induction cs with
  | nil =>
    intro st _ hst
    cases st with
    | none => exact ⟨[], rfl, by simp [joinTexts, stateVal], by simp⟩
    | some p =>
      obtain ⟨t, val⟩ := p
      obtain ⟨htw, hvne, hvall⟩ := hst
      refine ⟨[{ _type := t, value := some (String.mk val) }], rfl, ?_, ?_⟩
      · simp [joinTexts, stateVal]
      · intro tok htok
        simp only [List.mem_singleton] at htok
        subst htok
        exact ⟨htw, val, rfl, hvne, fun c hc => ⟨hvall c hc, Or.inl hc⟩⟩
  | cons c rest ih =>
    intro st hv hst
    obtain ⟨t2, hc2⟩ : ∃ t2, detect_char_type c = some t2 := by
      cases h : detect_char_type c with
      | none => exact absurd h (hv c (List.mem_cons_self c rest))
      | some t2 => exact ⟨t2, rfl⟩
    have hvrest : ∀ x ∈ rest, detect_char_type x ≠ none :=
      fun x hx => hv x (List.mem_cons_of_mem c hx)
    cases st with
    | none =>
      by_cases hw : t2 = TokType.Whitespace
      · subst hw
        have hsp : c = ' ' := detect_ws_iff.mp hc2
        obtain ⟨ts, hts, hjoin, hgood⟩ := ih none hvrest trivial
        refine ⟨ts, ?_, ?_, ?_⟩
        · simpa [tokenizeGo, hc2] using hts
        · rw [List.filter_cons_of_neg (by simp [hsp])]
          simpa [stateVal] using hjoin
        · intro tok htok
          obtain ⟨h1, v, h2, h3, h4⟩ := hgood tok htok
          refine ⟨h1, v, h2, h3, fun x hx => ⟨(h4 x hx).1, ?_⟩⟩
          rcases (h4 x hx).2 with hm | hm
          · simp [stateVal] at hm
          · exact Or.inr (List.mem_cons_of_mem c hm)
      · have hcsp : c ≠ ' ' := detect_nonws_char hc2 hw
        obtain ⟨ts, hts, hjoin, hgood⟩ := ih (some (t2, [c])) hvrest
          ⟨hw, by simp, by simp [hc2]⟩
        refine ⟨ts, ?_, ?_, ?_⟩
        · simpa [tokenizeGo, hc2, hw] using hts
        · rw [List.filter_cons_of_pos (by simp [hcsp])]
          simpa [stateVal] using hjoin
        · intro tok htok
          obtain ⟨h1, v, h2, h3, h4⟩ := hgood tok htok
          refine ⟨h1, v, h2, h3, fun x hx => ⟨(h4 x hx).1, ?_⟩⟩
          rcases (h4 x hx).2 with hm | hm
          · simp only [stateVal, List.mem_singleton] at hm
            exact Or.inr (by simp [hm])
          · exact Or.inr (List.mem_cons_of_mem c hm)
    | some p =>
      obtain ⟨t, val⟩ := p
      obtain ⟨htw, hvne, hvall⟩ := hst
      by_cases heq : t2 = t
      · subst heq
        have hcsp : c ≠ ' ' := detect_nonws_char hc2 htw
        obtain ⟨ts, hts, hjoin, hgood⟩ := ih (some (t2, val ++ [c])) hvrest
          ⟨htw, by simp, by
            intro x hx
            rcases List.mem_append.mp hx with h | h
            · exact hvall x h
            · simp only [List.mem_singleton] at h
              subst h
              exact hc2⟩
        refine ⟨ts, ?_, ?_, ?_⟩
        · simpa [tokenizeGo, hc2] using hts
        · rw [List.filter_cons_of_pos (by simp [hcsp])]
          simp only [stateVal] at hjoin ⊢
          rw [hjoin]
          simp
        · intro tok htok
          obtain ⟨h1, v, h2, h3, h4⟩ := hgood tok htok
          refine ⟨h1, v, h2, h3, fun x hx => ⟨(h4 x hx).1, ?_⟩⟩
          rcases (h4 x hx).2 with hm | hm
          · simp only [stateVal] at hm
            rcases List.mem_append.mp hm with h | h
            · exact Or.inl (by simpa [stateVal] using h)
            · simp only [List.mem_singleton] at h
              exact Or.inr (by simp [h])
          · exact Or.inr (List.mem_cons_of_mem c hm)
      · by_cases hw : t2 = TokType.Whitespace
        · subst hw
          have hsp : c = ' ' := detect_ws_iff.mp hc2
          obtain ⟨ts, hts, hjoin, hgood⟩ := ih none hvrest trivial
          refine ⟨{ _type := t, value := some (String.mk val) } :: ts, ?_, ?_, ?_⟩
          · have hstep : tokenizeGo (some (t, val)) (c :: rest) =
                (tokenizeGo none rest).map ({ _type := t, value := some (String.mk val) } :: ·) := by
              simp [tokenizeGo, hc2, heq]
            rw [hstep, hts]
            rfl
          · rw [List.filter_cons_of_neg (by simp [hsp])]
            simp only [joinTexts, List.map_cons, List.flatten_cons] at hjoin ⊢
            simp only [stateVal] at hjoin ⊢
            simp only [Option.getD_some] at hjoin ⊢
            rw [hjoin]
            simp
          · intro tok htok
            rcases List.mem_cons.mp htok with h | h
            · subst h
              exact ⟨htw, val, rfl, hvne, fun x hx => ⟨hvall x hx, Or.inl hx⟩⟩
            · obtain ⟨h1, v, h2, h3, h4⟩ := hgood tok h
              refine ⟨h1, v, h2, h3, fun x hx => ⟨(h4 x hx).1, ?_⟩⟩
              rcases (h4 x hx).2 with hm | hm
              · simp [stateVal] at hm
              · exact Or.inr (List.mem_cons_of_mem c hm)
        · have hcsp : c ≠ ' ' := detect_nonws_char hc2 hw
          obtain ⟨ts, hts, hjoin, hgood⟩ := ih (some (t2, [c])) hvrest
            ⟨hw, by simp, by simp [hc2]⟩
          refine ⟨{ _type := t, value := some (String.mk val) } :: ts, ?_, ?_, ?_⟩
          · have hstep : tokenizeGo (some (t, val)) (c :: rest) =
                (tokenizeGo (some (t2, [c])) rest).map
                  ({ _type := t, value := some (String.mk val) } :: ·) := by
              simp [tokenizeGo, hc2, heq, hw]
            rw [hstep, hts]
            rfl
          · rw [List.filter_cons_of_pos (by simp [hcsp])]
            simp only [joinTexts, List.map_cons, List.flatten_cons] at hjoin ⊢
            simp only [stateVal] at hjoin ⊢
            simp only [Option.getD_some] at hjoin ⊢
            rw [hjoin]
            simp
          · intro tok htok
            rcases List.mem_cons.mp htok with h | h
            · subst h
              exact ⟨htw, val, rfl, hvne, fun x hx => ⟨hvall x hx, Or.inl hx⟩⟩
            · obtain ⟨h1, v, h2, h3, h4⟩ := hgood tok h
              refine ⟨h1, v, h2, h3, fun x hx => ⟨(h4 x hx).1, ?_⟩⟩
              rcases (h4 x hx).2 with hm | hm
              · simp only [stateVal, List.mem_singleton] at hm
                exact Or.inr (by simp [hm])
              · exact Or.inr (List.mem_cons_of_mem c hm)

/-- Scanning a fully valid input succeeds, reproduces the space-stripped
input as the concatenated token texts, and produces only good tokens. -/
theorem tokenize_total {l : List Char} (hv : ∀ c ∈ l, ValidChar c) :
    ∃ ts, tokenize (String.mk l) = some ts ∧
      joinTexts ts = l.filter (fun c => c != ' ') ∧
      ∀ tok ∈ ts, tok._type ≠ TokType.Whitespace ∧
        ∃ v, tok.value = some (String.mk v) ∧ v ≠ [] ∧
          ∀ c ∈ v, detect_char_type c = some tok._type ∧ c ∈ l := by
  obtain ⟨ts, h1, h2, h3⟩ := tokenizeGo_spec l none hv trivial
  refine ⟨ts, h1, by simpa [stateVal] using h2, ?_⟩
  intro tok htok
  obtain ⟨g1, v, g2, g3, g4⟩ := h3 tok htok
  exact ⟨g1, v, g2, g3, fun c hc =>
    ⟨(g4 c hc).1, ((g4 c hc).2).resolve_left (by simp [stateVal])⟩⟩

/-- Characterization of `is_ops` through the token class. -/
theorem is_ops_type {t : Token} :
    t.is_ops = true ↔
      (t._type = TokType.Minus ∨ t._type = TokType.Plus ∨
       t._type = TokType.Mul ∨ t._type = TokType.Div) := by
  cases ht : t._type <;> simp [Token.is_ops, ht]

/-- Splitting the pre-terminator prefix at a non-`Eof` head. -/
theorem preEof_cons_ne {a : Token} {rest : List Token} (ha : a._type ≠ TokType.Eof) :
    preEof (a :: rest) = a :: preEof rest := by
  simp [preEof, List.takeWhile_cons, ha]

/-- The pre-terminator prefix of an `Eof`-headed stream is empty. -/
theorem preEof_cons_eof {a : Token} {rest : List Token} (ha : a._type = TokType.Eof) :
    preEof (a :: rest) = [] := by
  simp [preEof, List.takeWhile_cons, ha]

/-- A division-by-zero pattern survives dropping a non-`Div` head. -/
theorem hasDivZero_cons_nondiv {b : Token} {l : List Token}
    (hb : b._type ≠ TokType.Div) (h : hasDivZero (b :: l) = true) :
    hasDivZero l = true := by
  cases l with
  | nil => simp [hasDivZero] at h
  | cons x l2 =>
    rw [hasDivZero] at h
    simp only [Bool.or_eq_true, Bool.and_eq_true, beq_iff_eq] at h
    rcases h with ⟨⟨hbd, _⟩, _⟩ | h
    · exact absurd hbd hb
    · exact h

/-- An adjacent-integers pattern survives dropping a non-`Integer` head. -/
theorem hasIntInt_cons_nonint {b : Token} {l : List Token}
    (hb : b._type ≠ TokType.Integer) (h : hasIntInt (b :: l) = true) :
    hasIntInt l = true := by
  cases l with
  | nil => simp [hasIntInt] at h
  | cons x l2 =>
    rw [hasIntInt] at h
    simp only [Bool.or_eq_true, Bool.and_eq_true, beq_iff_eq] at h
    rcases h with ⟨hbd, _⟩ | h
    · exact absurd hbd hb
    · exact h

/-- A non-operator, non-terminator token in operator position is an error. -/
theorem evalLoop_head_notops {v : Int} {a : Token} {rest : List Token}
    (haeof : a._type ≠ TokType.Eof) (haops : a.is_ops = false) :
    evalLoop v (a :: rest) =
      some (Except.error (Error.with_message "Item must be operand!")) := by
  rw [evalLoop.eq_def]
  cases hat : a._type <;> simp_all [Token.is_ops]

/-- An operator token at the very end of the stream is an error. -/
theorem evalLoop_dangling_step {v : Int} {a : Token}
    (haeof : a._type ≠ TokType.Eof) (haops : a.is_ops = true) :
    evalLoop v [a] =
      some (Except.error (Error.with_message "Unexpected end of stream")) := by
  rw [evalLoop.eq_def]
  cases hat : a._type <;> simp_all [Token.is_ops]

/-- A failing operand parse propagates out of the loop. -/
theorem evalLoop_parse_error {v : Int} {a b : Token} {rest2 : List Token} {e : Error}
    (haeof : a._type ≠ TokType.Eof) (haops : a.is_ops = true)
    (hpb : parse_number b = Except.error e) :
    evalLoop v (a :: b :: rest2) = some (Except.error e) := by
  rw [evalLoop.eq_def]
  cases hat : a._type <;> simp_all [Token.is_ops]

/-- If the tokens before the first terminator contain a `Div` immediately
followed by a zero operand, the evaluation loop errors for any accumulator,
provided every successfully parsed token is nonnegative. -/
theorem evalLoop_divZero :
    ∀ (n : Nat) (ts : List Token) (v : Int), ts.length ≤ n →
      (∀ t ∈ ts, ∀ w : Int, parse_number t = Except.ok w → 0 ≤ w) →
      hasDivZero (preEof ts) = true →
      ∃ e, evalLoop v ts = some (Except.error e) := by
  intro n
  induction n with
  | zero =>
    intro ts v hlen hsg hdz
    obtain rfl : ts = [] := List.length_eq_zero.mp (Nat.le_zero.mp hlen)
    simp [preEof, hasDivZero] at hdz
  | succ n ihn =>
    intro ts v hlen hsg hdz
    cases ts with
    | nil => simp [preEof, hasDivZero] at hdz
    | cons a rest =>
      by_cases haeof : a._type = TokType.Eof
      · rw [preEof_cons_eof haeof] at hdz
        simp [hasDivZero] at hdz
      rw [preEof_cons_ne haeof] at hdz
      by_cases haops : a.is_ops = true
      case neg =>
        rw [Bool.not_eq_true] at haops
        exact ⟨_, evalLoop_head_notops haeof haops⟩
      case pos =>
        cases rest with
        | nil => exact ⟨_, evalLoop_dangling_step haeof haops⟩
        | cons b rest2 =>
          cases hpb : parse_number b with
          | error e => exact ⟨e, evalLoop_parse_error haeof haops hpb⟩
          | ok s =>
            have hbint : b._type = TokType.Integer := parse_number_ok_type hpb
            have hbne : b._type ≠ TokType.Eof := by simp [hbint]
            rw [preEof_cons_ne hbne] at hdz
            have hs0 : 0 ≤ s := hsg b (by simp) s hpb
            have hsne1 : ¬(v = i64Min ∧ s = -1) := by
              rintro ⟨_, rfl⟩
              omega
            have hsgr : ∀ t ∈ rest2, ∀ w : Int, parse_number t = Except.ok w → 0 ≤ w :=
              fun t ht w hw => hsg t (by simp [ht]) w hw
            have hlr : rest2.length ≤ n := by
              simp only [List.length_cons] at hlen
              omega
            rw [hasDivZero] at hdz
            simp only [Bool.or_eq_true, Bool.and_eq_true, beq_iff_eq] at hdz
            rcases is_ops_type.mp haops with hat | hat | hat | hat
            · rcases hdz with ⟨⟨had, _⟩, _⟩ | hdzr
              · simp [hat] at had
              have hdzrest : hasDivZero (preEof rest2) = true :=
                hasDivZero_cons_nondiv (by simp [hbint]) hdzr
              have hstep : evalLoop v (a :: b :: rest2) = evalLoop (wrap64 (v - s)) rest2 := by
                rw [evalLoop.eq_def]
                simp [hat, hpb, Token.is_ops]
              rw [hstep]
              exact ihn rest2 _ hlr hsgr hdzrest
            · rcases hdz with ⟨⟨had, _⟩, _⟩ | hdzr
              · simp [hat] at had
              have hdzrest : hasDivZero (preEof rest2) = true :=
                hasDivZero_cons_nondiv (by simp [hbint]) hdzr
              have hstep : evalLoop v (a :: b :: rest2) = evalLoop (wrap64 (v + s)) rest2 := by
                rw [evalLoop.eq_def]
                simp [hat, hpb, Token.is_ops]
              rw [hstep]
              exact ihn rest2 _ hlr hsgr hdzrest
            · rcases hdz with ⟨⟨had, _⟩, _⟩ | hdzr
              · simp [hat] at had
              have hdzrest : hasDivZero (preEof rest2) = true :=
                hasDivZero_cons_nondiv (by simp [hbint]) hdzr
              have hstep : evalLoop v (a :: b :: rest2) = evalLoop (wrap64 (v * s)) rest2 := by
                rw [evalLoop.eq_def]
                simp [hat, hpb, Token.is_ops]
              rw [hstep]
              exact ihn rest2 _ hlr hsgr hdzrest
            · by_cases hs : s = 0
              · refine ⟨Error.with_message "Division by zero!", ?_⟩
                rw [evalLoop.eq_def]
                simp [hat, hpb, Token.is_ops, hs]
              · rcases hdz with ⟨_, hp0⟩ | hdzr
                · exact absurd (Except.ok.inj (hpb.symm.trans hp0)) hs
                have hdzrest : hasDivZero (preEof rest2) = true :=
                  hasDivZero_cons_nondiv (by simp [hbint]) hdzr
                have hstep : evalLoop v (a :: b :: rest2) = evalLoop (Int.tdiv v s) rest2 := by
                  rw [evalLoop.eq_def]
                  simp [hat, hpb, Token.is_ops, hs, hsne1]
                rw [hstep]
                exact ihn rest2 _ hlr hsgr hdzrest

/-- Stepping the loop over an operator token and a successfully parsed
nonnegative operand: either an immediate error, or the loop continues on the
tail with a new accumulator (and a division step has a nonzero divisor). -/
theorem evalLoop_op_step {v s : Int} {a b : Token} {rest2 : List Token}
    (haops : a.is_ops = true)
    (hpb : parse_number b = Except.ok s) (hs0 : 0 ≤ s) :
    (∃ e, evalLoop v (a :: b :: rest2) = some (Except.error e)) ∨
      ∃ v2, evalLoop v (a :: b :: rest2) = evalLoop v2 rest2 ∧
        (a._type = TokType.Div → s ≠ 0) := by
  have hsne1 : ¬(v = i64Min ∧ s = -1) := by
    rintro ⟨_, rfl⟩
    omega
  rcases is_ops_type.mp haops with hat | hat | hat | hat
  · right
    refine ⟨wrap64 (v - s), ?_, by simp [hat]⟩
    rw [evalLoop.eq_def]
    simp [hat, hpb, Token.is_ops]
  · right
    refine ⟨wrap64 (v + s), ?_, by simp [hat]⟩
    rw [evalLoop.eq_def]
    simp [hat, hpb, Token.is_ops]
  · right
    refine ⟨wrap64 (v * s), ?_, by simp [hat]⟩
    rw [evalLoop.eq_def]
    simp [hat, hpb, Token.is_ops]
  · by_cases hs : s = 0
    · left
      refine ⟨Error.with_message "Division by zero!", ?_⟩
      rw [evalLoop.eq_def]
      simp [hat, hpb, Token.is_ops, hs]
    · right
      refine ⟨Int.tdiv v s, ?_, fun _ => hs⟩
      rw [evalLoop.eq_def]
      simp [hat, hpb, Token.is_ops, hs, hsne1]

/-- Decompose a nonempty pre-terminator prefix. -/
theorem preEof_eq_cons {ts : List Token} {x : Token} {l : List Token}
    (h : preEof ts = x :: l) :
    ∃ rest3, ts = x :: rest3 ∧ x._type ≠ TokType.Eof ∧ preEof rest3 = l := by
  cases ts with
  | nil => simp [preEof] at h
  | cons a r =>
    by_cases ha : a._type = TokType.Eof
    · rw [preEof_cons_eof ha] at h
      cases h
    · rw [preEof_cons_ne ha] at h
      obtain ⟨h1, h2⟩ := List.cons.inj h
      subst h1
      exact ⟨r, rfl, ha, h2⟩

/-- If the last token before the terminator is an operator (a dangling
operator), the loop errors for any accumulator. -/
theorem evalLoop_dangling :
    ∀ (n : Nat) (ts : List Token) (v : Int) (op : Token), ts.length ≤ n →
      (∀ t ∈ ts, ∀ w : Int, parse_number t = Except.ok w → 0 ≤ w) →
      (preEof ts).getLast? = some op → op.is_ops = true →
      ∃ e, evalLoop v ts = some (Except.error e) := by
  intro n
  induction n with
  | zero =>
    intro ts v op hlen hsg hlast hops
    obtain rfl : ts = [] := List.length_eq_zero.mp (Nat.le_zero.mp hlen)
    simp [preEof] at hlast
  | succ n ihn =>
    intro ts v op hlen hsg hlast hops
    cases ts with
    | nil => simp [preEof] at hlast
    | cons a rest =>
      by_cases haeof : a._type = TokType.Eof
      · rw [preEof_cons_eof haeof] at hlast
        simp at hlast
      rw [preEof_cons_ne haeof] at hlast
      by_cases haops : a.is_ops = true
      case neg =>
        rw [Bool.not_eq_true] at haops
        exact ⟨_, evalLoop_head_notops haeof haops⟩
      case pos =>
        cases rest with
        | nil => exact ⟨_, evalLoop_dangling_step haeof haops⟩
        | cons b rest2 =>
          cases hpb : parse_number b with
          | error e => exact ⟨e, evalLoop_parse_error haeof haops hpb⟩
          | ok s =>
            have hbint : b._type = TokType.Integer := parse_number_ok_type hpb
            have hbne : b._type ≠ TokType.Eof := by simp [hbint]
            rw [preEof_cons_ne hbne, List.getLast?_cons_cons] at hlast
            have hs0 : 0 ≤ s := hsg b (by simp) s hpb
            have hsgr : ∀ t ∈ rest2, ∀ w : Int, parse_number t = Except.ok w → 0 ≤ w :=
              fun t ht w hw => hsg t (by simp [ht]) w hw
            have hlr : rest2.length ≤ n := by
              simp only [List.length_cons] at hlen
              omega
            cases hpre : preEof rest2 with
            | nil =>
              rw [hpre] at hlast
              simp at hlast
              subst hlast
              simp [Token.is_ops, hbint] at hops
            | cons x l =>
              rw [hpre, List.getLast?_cons_cons, ← hpre] at hlast
              rcases evalLoop_op_step haops hpb hs0 with ⟨e, he⟩ | ⟨v2, hstep, _⟩
              · exact ⟨e, he⟩
              · rw [hstep]
                exact ihn rest2 v2 op hlr hsgr hlast hops

/-- If two `Integer` tokens are adjacent before the terminator, the loop
errors for any accumulator. -/
theorem evalLoop_intInt :
    ∀ (n : Nat) (ts : List Token) (v : Int), ts.length ≤ n →
      (∀ t ∈ ts, ∀ w : Int, parse_number t = Except.ok w → 0 ≤ w) →
      hasIntInt (preEof ts) = true →
      ∃ e, evalLoop v ts = some (Except.error e) := by
  intro n
  induction n with
  | zero =>
    intro ts v hlen hsg hii
    obtain rfl : ts = [] := List.length_eq_zero.mp (Nat.le_zero.mp hlen)
    simp [preEof, hasIntInt] at hii
  | succ n ihn =>
    intro ts v hlen hsg hii
    cases ts with
    | nil => simp [preEof, hasIntInt] at hii
    | cons a rest =>
      by_cases haeof : a._type = TokType.Eof
      · rw [preEof_cons_eof haeof] at hii
        simp [hasIntInt] at hii
      rw [preEof_cons_ne haeof] at hii
      by_cases haops : a.is_ops = true
      case neg =>
        rw [Bool.not_eq_true] at haops
        exact ⟨_, evalLoop_head_notops haeof haops⟩
      case pos =>
        cases rest with
        | nil => exact ⟨_, evalLoop_dangling_step haeof haops⟩
        | cons b rest2 =>
          cases hpb : parse_number b with
          | error e => exact ⟨e, evalLoop_parse_error haeof haops hpb⟩
          | ok s =>
            have hbint : b._type = TokType.Integer := parse_number_ok_type hpb
            have hbne : b._type ≠ TokType.Eof := by simp [hbint]
            rw [preEof_cons_ne hbne] at hii
            have hs0 : 0 ≤ s := hsg b (by simp) s hpb
            have hsgr : ∀ t ∈ rest2, ∀ w : Int, parse_number t = Except.ok w → 0 ≤ w :=
              fun t ht w hw => hsg t (by simp [ht]) w hw
            have hlr : rest2.length ≤ n := by
              simp only [List.length_cons] at hlen
              omega
            rw [hasIntInt] at hii
            simp only [Bool.or_eq_true, Bool.and_eq_true, beq_iff_eq] at hii
            rcases hii with ⟨hai, _⟩ | h2
            · rcases is_ops_type.mp haops with hat | hat | hat | hat <;> simp [hat] at hai
            cases hpre : preEof rest2 with
            | nil =>
              rw [hpre] at h2
              simp [hasIntInt] at h2
            | cons x l =>
              rw [hpre] at h2
              rw [hasIntInt] at h2
              simp only [Bool.or_eq_true, Bool.and_eq_true, beq_iff_eq] at h2
              rcases evalLoop_op_step haops hpb hs0 with ⟨e, he⟩ | ⟨v2, hstep, _⟩
              · exact ⟨e, he⟩
              rcases h2 with ⟨_, hxint⟩ | h3
              · obtain ⟨rest3, hr2, hxne, _⟩ := preEof_eq_cons hpre
                subst hr2
                have hxops : x.is_ops = false := by simp [Token.is_ops, hxint]
                rw [hstep]
                exact ⟨_, evalLoop_head_notops hxne hxops⟩
              · rw [hstep]
                refine ihn rest2 v2 hlr hsgr ?_
                rw [hpre]
                exact h3

/-- The loop over a well-formed operator/operand chain (optionally closed by
one terminator token) computes the left-to-right fold of the evaluator's
arithmetic, starting from the accumulator. -/
theorem evalLoop_chain :
    ∀ (ops : List (Op × List Char)) (v : Int) (tail : List Token),
      (∀ p ∈ ops, IsDigitRun p.2 ∧ (digitsNat p.2 : Int) ≤ i64Max ∧
        (p.1 = Op.div → digitsNat p.2 ≠ 0)) →
      (tail = [] ∨ ∃ t, tail = [t] ∧ t._type = TokType.Eof) →
      evalLoop v (chainOpTokens ops ++ tail) =
        some (Except.ok (some (chainFold v ops))) := by
  intro ops
  induction ops with
  | nil =>
    intro v tail hops htail
    rcases htail with rfl | ⟨t, rfl, ht⟩
    · simp [chainOpTokens, chainFold, evalLoop]
    · simp only [chainOpTokens, List.map_nil, List.flatten_nil, List.nil_append,
        chainFold, List.foldl_nil]
      rw [evalLoop.eq_def]
      simp [ht]
  | cons p ops ih =>
    obtain ⟨o, d⟩ := p
    intro v tail hops htail
    obtain ⟨hdr, hle, hdznz⟩ := hops (o, d) (by simp)
    have hparse : parse_number (intToken d) = Except.ok ((digitsNat d : Int)) :=
      parse_number_intToken hdr hle
    have hopsr : ∀ q ∈ ops, IsDigitRun q.2 ∧ (digitsNat q.2 : Int) ≤ i64Max ∧
        (q.1 = Op.div → digitsNat q.2 ≠ 0) := fun q hq => hops q (by simp [hq])
    have hchain : chainOpTokens ((o, d) :: ops) ++ tail =
        opToken o :: intToken d :: (chainOpTokens ops ++ tail) := by
      simp [chainOpTokens]
    rw [hchain]
    have hfold : chainFold v ((o, d) :: ops) = chainFold (o.wrapApply v (digitsNat d)) ops := by
      simp [chainFold]
    rw [hfold]
    cases o with
    | plus =>
      have hstep : evalLoop v (opToken Op.plus :: intToken d :: (chainOpTokens ops ++ tail)) =
          evalLoop (wrap64 (v + (digitsNat d : Int))) (chainOpTokens ops ++ tail) := by
        rw [evalLoop.eq_def]
        simp [opToken, Op.tokType, Token.is_ops, hparse]
      rw [hstep]
      exact ih _ tail hopsr htail
    | minus =>
      have hstep : evalLoop v (opToken Op.minus :: intToken d :: (chainOpTokens ops ++ tail)) =
          evalLoop (wrap64 (v - (digitsNat d : Int))) (chainOpTokens ops ++ tail) := by
        rw [evalLoop.eq_def]
        simp [opToken, Op.tokType, Token.is_ops, hparse]
      rw [hstep]
      exact ih _ tail hopsr htail
    | mul =>
      have hstep : evalLoop v (opToken Op.mul :: intToken d :: (chainOpTokens ops ++ tail)) =
          evalLoop (wrap64 (v * (digitsNat d : Int))) (chainOpTokens ops ++ tail) := by
        rw [evalLoop.eq_def]
        simp [opToken, Op.tokType, Token.is_ops, hparse]
      rw [hstep]
      exact ih _ tail hopsr htail
    | div =>
      have hne : (digitsNat d : Int) ≠ 0 := by
        have hnz := hdznz rfl
        exact_mod_cast hnz
      have hne1 : ¬(v = i64Min ∧ (digitsNat d : Int) = -1) := by
        rintro ⟨_, habs⟩
        have h0 : (0 : Int) ≤ (digitsNat d : Int) := Int.ofNat_nonneg _
        omega
      have hstep : evalLoop v (opToken Op.div :: intToken d :: (chainOpTokens ops ++ tail)) =
          evalLoop (Int.tdiv v (digitsNat d)) (chainOpTokens ops ++ tail) := by
        rw [evalLoop.eq_def]
        simp [opToken, Op.tokType, Token.is_ops, hparse, hne, hne1]
      rw [hstep]
      exact ih _ tail hopsr htail

/-- Up to the first terminator token, the loop ignores the terminator's text
and everything after it. -/
theorem evalLoop_preEof_eq :
    ∀ (n : Nat) (pre : List Token) (v : Int) (e1 e2 : Token) (suf1 suf2 : List Token),
      pre.length ≤ n →
      (∀ t ∈ pre, t._type ≠ TokType.Eof) →
      e1._type = TokType.Eof → e2._type = TokType.Eof →
      evalLoop v (pre ++ e1 :: suf1) = evalLoop v (pre ++ e2 :: suf2) := by
  intro n
  induction n with
  | zero =>
    intro pre v e1 e2 s1 s2 hlen _ h1 h2
    obtain rfl : pre = [] := List.length_eq_zero.mp (Nat.le_zero.mp hlen)
    simp only [List.nil_append]
    rw [evalLoop.eq_def, evalLoop.eq_def]
    simp [h1, h2]
  | succ n ihn =>
    intro pre v e1 e2 s1 s2 hlen hne h1 h2
    cases pre with
    | nil =>
      simp only [List.nil_append]
      rw [evalLoop.eq_def, evalLoop.eq_def]
      simp [h1, h2]
    | cons a pr =>
    have ha : a._type ≠ TokType.Eof := hne a (by simp)
    by_cases haops : a.is_ops = true
    case neg =>
      rw [Bool.not_eq_true] at haops
      rw [List.cons_append, List.cons_append,
        evalLoop_head_notops ha haops, evalLoop_head_notops ha haops]
    case pos =>
      cases pr with
      | nil =>
        have hp1 : parse_number e1 =
            Except.error (Error.with_message "Evaluated text must be integer!") := by
          simp [parse_number, h1]
        have hp2 : parse_number e2 =
            Except.error (Error.with_message "Evaluated text must be integer!") := by
          simp [parse_number, h2]
        simp only [List.cons_append, List.nil_append]
        rw [evalLoop_parse_error ha haops hp1, evalLoop_parse_error ha haops hp2]
      | cons b pr2 =>
        have hner : ∀ t ∈ pr2, t._type ≠ TokType.Eof := fun t ht => hne t (by simp [ht])
        have hlr : pr2.length ≤ n := by
          simp only [List.length_cons] at hlen
          omega
        simp only [List.cons_append]
        cases hpb : parse_number b with
        | error e =>
          rw [evalLoop_parse_error ha haops hpb, evalLoop_parse_error ha haops hpb]
        | ok s =>
          rcases is_ops_type.mp haops with hat | hat | hat | hat
          · have hstep1 : evalLoop v (a :: b :: (pr2 ++ e1 :: s1)) =
                evalLoop (wrap64 (v - s)) (pr2 ++ e1 :: s1) := by
              rw [evalLoop.eq_def]
              simp [hat, hpb, Token.is_ops]
            have hstep2 : evalLoop v (a :: b :: (pr2 ++ e2 :: s2)) =
                evalLoop (wrap64 (v - s)) (pr2 ++ e2 :: s2) := by
              rw [evalLoop.eq_def]
              simp [hat, hpb, Token.is_ops]
            rw [hstep1, hstep2]
            exact ihn pr2 _ e1 e2 s1 s2 hlr hner h1 h2
          · have hstep1 : evalLoop v (a :: b :: (pr2 ++ e1 :: s1)) =
                evalLoop (wrap64 (v + s)) (pr2 ++ e1 :: s1) := by
              rw [evalLoop.eq_def]
              simp [hat, hpb, Token.is_ops]
            have hstep2 : evalLoop v (a :: b :: (pr2 ++ e2 :: s2)) =
                evalLoop (wrap64 (v + s)) (pr2 ++ e2 :: s2) := by
              rw [evalLoop.eq_def]
              simp [hat, hpb, Token.is_ops]
            rw [hstep1, hstep2]
            exact ihn pr2 _ e1 e2 s1 s2 hlr hner h1 h2
          · have hstep1 : evalLoop v (a :: b :: (pr2 ++ e1 :: s1)) =
                evalLoop (wrap64 (v * s)) (pr2 ++ e1 :: s1) := by
              rw [evalLoop.eq_def]
              simp [hat, hpb, Token.is_ops]
            have hstep2 : evalLoop v (a :: b :: (pr2 ++ e2 :: s2)) =
                evalLoop (wrap64 (v * s)) (pr2 ++ e2 :: s2) := by
              rw [evalLoop.eq_def]
              simp [hat, hpb, Token.is_ops]
            rw [hstep1, hstep2]
            exact ihn pr2 _ e1 e2 s1 s2 hlr hner h1 h2
          · by_cases hs : s = 0
            · have hd1 : evalLoop v (a :: b :: (pr2 ++ e1 :: s1)) =
                  some (Except.error (Error.with_message "Division by zero!")) := by
                rw [evalLoop.eq_def]
                simp [hat, hpb, Token.is_ops, hs]
              have hd2 : evalLoop v (a :: b :: (pr2 ++ e2 :: s2)) =
                  some (Except.error (Error.with_message "Division by zero!")) := by
                rw [evalLoop.eq_def]
                simp [hat, hpb, Token.is_ops, hs]
              rw [hd1, hd2]
            · by_cases hv1 : v = i64Min ∧ s = -1
              · have hd1 : evalLoop v (a :: b :: (pr2 ++ e1 :: s1)) = none := by
                  rw [evalLoop.eq_def]
                  simp [hat, hpb, Token.is_ops, hs, hv1]
                have hd2 : evalLoop v (a :: b :: (pr2 ++ e2 :: s2)) = none := by
                  rw [evalLoop.eq_def]
                  simp [hat, hpb, Token.is_ops, hs, hv1]
                rw [hd1, hd2]
              · have hstep1 : evalLoop v (a :: b :: (pr2 ++ e1 :: s1)) =
                    evalLoop (Int.tdiv v s) (pr2 ++ e1 :: s1) := by
                  rw [evalLoop.eq_def]
                  simp [hat, hpb, Token.is_ops, hs, hv1]
                have hstep2 : evalLoop v (a :: b :: (pr2 ++ e2 :: s2)) =
                    evalLoop (Int.tdiv v s) (pr2 ++ e2 :: s2) := by
                  rw [evalLoop.eq_def]
                  simp [hat, hpb, Token.is_ops, hs, hv1]
                rw [hstep1, hstep2]
                exact ihn pr2 _ e1 e2 s1 s2 hlr hner h1 h2

/-- The space character classifies as `Whitespace`. -/
theorem detect_space : detect_char_type ' ' = some TokType.Whitespace := by decide

/-- The newline character classifies as `Eof`. -/
theorem detect_newline : detect_char_type '\n' = some TokType.Eof := by decide

/-- Leading spaces are skipped when no run is pending. -/
theorem tokenizeGo_spaces :
    ∀ (sp cs : List Char), (∀ c ∈ sp, c = ' ') →
      tokenizeGo none (sp ++ cs) = tokenizeGo none cs := by
  intro sp
  induction sp with
  | nil => intro cs _; rfl
  | cons c sp ih =>
    intro cs hsp
    have hc : c = ' ' := hsp c (by simp)
    subst hc
    have hstep : tokenizeGo none (' ' :: (sp ++ cs)) = tokenizeGo none (sp ++ cs) := by
      simp [tokenizeGo, detect_space]
    rw [List.cons_append, hstep]
    exact ih cs (fun x hx => hsp x (by simp [hx]))

/-- Consuming a whole same-class run when the character after it (if any)
classifies differently: the pending text grows by the run, the token is
emitted, and scanning restarts cleanly. -/
theorem tokenizeGo_run :
    ∀ (run : List Char) (t : TokType) (val : List Char) (cs : List Char),
      (∀ c ∈ run, detect_char_type c = some t) →
      t ≠ TokType.Whitespace →
      (cs = [] ∨ ∃ c2 t2, cs.head? = some c2 ∧ detect_char_type c2 = some t2 ∧ t2 ≠ t) →
      tokenizeGo (some (t, val)) (run ++ cs) =
        (tokenizeGo none cs).map
          ({ _type := t, value := some (String.mk (val ++ run)) } :: ·) := by
  intro run
  induction run with
  | nil =>
    intro t val cs hrun htw hbr
    simp only [List.nil_append, List.append_nil]
    rcases hbr with rfl | ⟨c2, t2, hh, hd2, hne⟩
    · simp [tokenizeGo]
    · cases cs with
      | nil => cases hh
      | cons c2x cs2 =>
        obtain rfl : c2x = c2 := by simpa using hh
        by_cases hw2 : t2 = TokType.Whitespace
        · subst hw2
          have hl : tokenizeGo (some (t, val)) (c2x :: cs2) =
              (tokenizeGo none cs2).map
                ({ _type := t, value := some (String.mk val) } :: ·) := by
            simp only [tokenizeGo, hd2]
            rw [if_neg hne, if_pos trivial]
          have hr : tokenizeGo none (c2x :: cs2) = tokenizeGo none cs2 := by
            simp [tokenizeGo, hd2]
          rw [hl, hr]
        · have hl : tokenizeGo (some (t, val)) (c2x :: cs2) =
              (tokenizeGo (some (t2, [c2x])) cs2).map
                ({ _type := t, value := some (String.mk val) } :: ·) := by
            simp only [tokenizeGo, hd2]
            rw [if_neg hne, if_neg hw2]
          have hr : tokenizeGo none (c2x :: cs2) = tokenizeGo (some (t2, [c2x])) cs2 := by
            simp [tokenizeGo, hd2, hw2]
          rw [hl, hr]
  | cons c run ih =>
    intro t val cs hrun htw hbr
    have hc : detect_char_type c = some t := hrun c (by simp)
    rw [List.cons_append]
    have hstep : tokenizeGo (some (t, val)) (c :: (run ++ cs)) =
        tokenizeGo (some (t, val ++ [c])) (run ++ cs) := by
      simp [tokenizeGo, hc]
    rw [hstep, ih t (val ++ [c]) cs (fun x hx => hrun x (by simp [hx])) htw hbr]
    have hl : (val ++ [c]) ++ run = val ++ (c :: run) := by simp
    rw [hl]

/-- Scanning a list of well-formed, adjacently-distinct padded runs yields
exactly one token per run, regardless of the space paddings. -/
theorem tokenizeGo_paddedRuns :
    ∀ (l : List PaddedRun) (padEnd : List Char),
      (∀ pr ∈ l, RunOK pr) → adjDistinct l = true → (∀ c ∈ padEnd, c = ' ') →
      tokenizeGo none (renderPadded l padEnd) = some (l.map runToken) := by
  intro l
  induction l with
  | nil =>
    intro padEnd _ _ hpe
    have h0 := tokenizeGo_spaces padEnd [] hpe
    rw [List.append_nil] at h0
    rw [renderPadded, h0]
    rfl
  | cons pr l ih =>
    obtain ⟨pad, t, run⟩ := pr
    intro padEnd hok hadj hpe
    obtain ⟨hpad, hrne, htw, hrall⟩ := hok (pad, t, run) (by simp)
    rw [renderPadded, List.append_assoc, tokenizeGo_spaces pad _ hpad]
    cases run with
    | nil => exact absurd rfl hrne
    | cons c rc =>
      have hc : detect_char_type c = some t := hrall c (by simp)
      have hstep : tokenizeGo none (c :: (rc ++ renderPadded l padEnd)) =
          tokenizeGo (some (t, [c])) (rc ++ renderPadded l padEnd) := by
        simp [tokenizeGo, hc, htw]
      rw [List.cons_append, hstep]
      have hadjl : adjDistinct l = true := by
        cases l with
        | nil => rfl
        | cons y l2 =>
          obtain ⟨p2, t2, r2⟩ := y
          rw [adjDistinct] at hadj
          simp only [Bool.and_eq_true] at hadj
          exact hadj.2
      have hbr : renderPadded l padEnd = [] ∨
          ∃ c2 t2, (renderPadded l padEnd).head? = some c2 ∧
            detect_char_type c2 = some t2 ∧ t2 ≠ t := by
        cases l with
        | nil =>
          cases hpe2 : padEnd with
          | nil => exact Or.inl (by rw [renderPadded])
          | cons c2 pe2 =>
            refine Or.inr ⟨c2, TokType.Whitespace, ?_, ?_, htw.symm⟩
            · rw [renderPadded]
              rfl
            · have : c2 = ' ' := hpe c2 (by rw [hpe2]; simp)
              rw [this]
              exact detect_space
        | cons y l2 =>
          obtain ⟨p2, t2, r2⟩ := y
          obtain ⟨hpad2, hrne2, htw2, hrall2⟩ := hok (p2, t2, r2) (by simp)
          have hneq : t ≠ t2 := by
            rw [adjDistinct] at hadj
            simp only [Bool.and_eq_true] at hadj
            exact bne_iff_ne.mp hadj.1
          cases hp2 : p2 with
          | cons c2 p2r =>
            refine Or.inr ⟨c2, TokType.Whitespace, ?_, ?_, htw.symm⟩
            · rw [renderPadded]
              rfl
            · have : c2 = ' ' := hpad2 c2 (by rw [hp2]; simp)
              rw [this]
              exact detect_space
          | nil =>
            cases hr2 : r2 with
            | nil => exact absurd hr2 hrne2
            | cons c2 r2r =>
              refine Or.inr ⟨c2, t2, ?_, ?_, hneq.symm⟩
              · rw [renderPadded]
                rfl
              · exact hrall2 c2 (by rw [hr2]; simp)
      rw [tokenizeGo_run rc t [c] _ (fun x hx => hrall x (by simp [hx])) htw hbr]
      rw [ih padEnd (fun q hq => hok q (by simp [hq])) hadjl hpe]
      rfl

/-- Scanner step: skip a space with no pending run. -/
theorem tokenizeGo_step_ws {c : Char} {cs : List Char}
    (h : detect_char_type c = some TokType.Whitespace) :
    tokenizeGo none (c :: cs) = tokenizeGo none cs := by
  simp [tokenizeGo, h]

/-- Scanner step: start a run with no pending run. -/
theorem tokenizeGo_step_start {c : Char} {cs : List Char} {t2 : TokType}
    (h : detect_char_type c = some t2) (hw : t2 ≠ TokType.Whitespace) :
    tokenizeGo none (c :: cs) = tokenizeGo (some (t2, [c])) cs := by
  simp [tokenizeGo, h, hw]

/-- Scanner step: extend a pending run by a same-class character. -/
theorem tokenizeGo_step_extend {c : Char} {cs : List Char} {t : TokType} {val : List Char}
    (h : detect_char_type c = some t) :
    tokenizeGo (some (t, val)) (c :: cs) = tokenizeGo (some (t, val ++ [c])) cs := by
  simp [tokenizeGo, h]

/-- Scanner step: a space breaks a pending run and emits its token. -/
theorem tokenizeGo_step_break_ws {c : Char} {cs : List Char} {t : TokType} {val : List Char}
    (h : detect_char_type c = some TokType.Whitespace) (hne : t ≠ TokType.Whitespace) :
    tokenizeGo (some (t, val)) (c :: cs) =
      (tokenizeGo none cs).map ({ _type := t, value := some (String.mk val) } :: ·) := by
  simp only [tokenizeGo, h]
  rw [if_neg (Ne.symm hne), if_pos trivial]

/-- Scanner step: a differently-classified non-space character breaks a
pending run, emits its token, and starts a new run. -/
theorem tokenizeGo_step_break {c : Char} {cs : List Char} {t t2 : TokType} {val : List Char}
    (h : detect_char_type c = some t2) (hne : t2 ≠ t) (hw : t2 ≠ TokType.Whitespace) :
    tokenizeGo (some (t, val)) (c :: cs) =
      (tokenizeGo (some (t2, [c])) cs).map
        ({ _type := t, value := some (String.mk val) } :: ·) := by
  simp only [tokenizeGo, h]
  rw [if_neg hne, if_neg hw]

/-- Base case of the boundary split: nothing left of the boundary. -/
theorem tokenizeGo_append_nil
    (st : Option (TokType × List Char)) (ys : List Char) (ts : List Token)
    (hst : st = none ∨ ∃ t val, st = some (t, val) ∧ t ≠ TokType.Eof)
    (hys : ys = [] ∨ ys.head? = some '\n')
    (hcs : tokenizeGo st [] = some ts) :
    tokenizeGo st ([] ++ ys) = (tokenizeGo none ys).map (ts ++ ·) := by
  rcases hst with rfl | ⟨t, val, rfl, htne⟩
  · obtain rfl : ts = [] := by simpa [tokenizeGo] using hcs.symm
    simp only [List.nil_append]
    cases tokenizeGo none ys <;> simp
  · obtain rfl : ts = [{ _type := t, value := some (String.mk val) }] := by
      simpa [tokenizeGo] using hcs.symm
    rcases hys with rfl | hys
    · simp [tokenizeGo]
    · cases ys with
      | nil => cases hys
      | cons y ys2 =>
        obtain rfl : y = '\n' := by simpa using hys
        rw [List.nil_append,
          tokenizeGo_step_break detect_newline (fun h => htne h.symm) (by simp),
          tokenizeGo_step_start detect_newline (by simp)]
        cases tokenizeGo (some (TokType.Eof, ['\n'])) ys2 <;> simp

/-- Scanning `cs ++ ys` splits cleanly at the boundary when no character of
`cs` (nor the pending run) classifies as `Eof` and `ys` is empty or begins
with a newline: the tokens are those of `cs` followed by those of `ys`. -/
theorem tokenizeGo_append :
    ∀ (n : Nat) (cs : List Char) (st : Option (TokType × List Char)) (ys : List Char)
      (ts : List Token),
      cs.length ≤ n →
      (∀ c ∈ cs, detect_char_type c ≠ some TokType.Eof) →
      (st = none ∨ ∃ t val, st = some (t, val) ∧ t ≠ TokType.Eof) →
      (ys = [] ∨ ys.head? = some '\n') →
      tokenizeGo st cs = some ts →
      tokenizeGo st (cs ++ ys) = (tokenizeGo none ys).map (ts ++ ·) := by
  intro n
  induction n with
  | zero =>
    intro cs st ys ts hlen hno hst hys hcs
    obtain rfl : cs = [] := List.length_eq_zero.mp (Nat.le_zero.mp hlen)
    exact tokenizeGo_append_nil st ys ts hst hys hcs
  | succ n ihn =>
    intro cs st ys ts hlen hno hst hys hcs
    cases cs with
    | nil =>
      exact tokenizeGo_append_nil st ys ts hst hys hcs
    | cons c rest =>
      have hlr : rest.length ≤ n := by
        simp only [List.length_cons] at hlen
        omega
      have hnor : ∀ x ∈ rest, detect_char_type x ≠ some TokType.Eof :=
        fun x hx => hno x (by simp [hx])
      cases hdc : detect_char_type c with
      | none =>
        rcases hst with rfl | ⟨t, val, rfl, htne⟩ <;>
          simp [tokenizeGo, hdc] at hcs
      | some t2 =>
        have ht2ne : t2 ≠ TokType.Eof := fun h => hno c (by simp) (h ▸ hdc)
        rcases hst with rfl | ⟨t, val, rfl, htne⟩
        · by_cases hw : t2 = TokType.Whitespace
          · subst hw
            rw [tokenizeGo_step_ws hdc] at hcs
            rw [List.cons_append, tokenizeGo_step_ws hdc]
            exact ihn rest none ys ts hlr hnor (Or.inl rfl) hys hcs
          · rw [tokenizeGo_step_start hdc hw] at hcs
            rw [List.cons_append, tokenizeGo_step_start hdc hw]
            exact ihn rest (some (t2, [c])) ys ts hlr hnor
              (Or.inr ⟨t2, [c], rfl, ht2ne⟩) hys hcs
        · by_cases heq : t2 = t
          · subst heq
            rw [tokenizeGo_step_extend hdc] at hcs
            rw [List.cons_append, tokenizeGo_step_extend hdc]
            exact ihn rest (some (t2, val ++ [c])) ys ts hlr hnor
              (Or.inr ⟨t2, val ++ [c], rfl, ht2ne⟩) hys hcs
          · by_cases hw : t2 = TokType.Whitespace
            · subst hw
              have hne' : t ≠ TokType.Whitespace := fun h => heq h.symm
              rw [tokenizeGo_step_break_ws hdc hne'] at hcs
              obtain ⟨ts2, hts2, rfl⟩ := Option.map_eq_some'.mp hcs
              rw [List.cons_append, tokenizeGo_step_break_ws hdc hne']
              rw [ihn rest none ys ts2 hlr hnor (Or.inl rfl) hys hts2]
              cases tokenizeGo none ys <;> simp
            · rw [tokenizeGo_step_break hdc heq hw] at hcs
              obtain ⟨ts2, hts2, rfl⟩ := Option.map_eq_some'.mp hcs
              rw [List.cons_append, tokenizeGo_step_break hdc heq hw]
              rw [ihn rest (some (t2, [c])) ys ts2 hlr hnor
                (Or.inr ⟨t2, [c], rfl, ht2ne⟩) hys hts2]
              cases tokenizeGo none ys <;> simp

/-- Wrap-around is the identity inside the `i64` range. -/
theorem wrap64_eq_self {x : Int} (h1 : i64Min ≤ x) (h2 : x ≤ i64Max) :
    wrap64 x = x := by
  unfold wrap64
  unfold i64Min at h1
  unfold i64Max at h2
  have h3 : (0 : Int) ≤ x + 2 ^ 63 := by omega
  have h4 : x + 2 ^ 63 < 2 ^ 64 := by omega
  rw [Int.emod_eq_of_lt h3 h4]
  omega

/-- Folding a single-operator chain is one application of the evaluator's
arithmetic. -/
theorem chainFold_one (v : Int) (o : Op) (d : List Char) :
    chainFold v [(o, d)] = o.wrapApply v ((digitsNat d : Int)) := by
  simp [chainFold]

/-- The evaluator's wrapped arithmetic agrees with exact arithmetic when
the exact result lies in the `i64` range. -/
theorem wrapApply_eq_exactApply {o : Op} {x y : Int}
    (h1 : i64Min ≤ o.exactApply x y) (h2 : o.exactApply x y ≤ i64Max) :
    o.wrapApply x y = o.exactApply x y := by
  cases o with
  | plus => exact wrap64_eq_self h1 h2
  | minus => exact wrap64_eq_self h1 h2
  | mul => exact wrap64_eq_self h1 h2
  | div => rfl

/-- A stream headed by a terminator evaluates to the blank result. -/
theorem evalStream_eof {t : Token} {rest : List Token}
    (h : t._type = TokType.Eof) :
    evalStream (t :: rest) = some (Except.ok none) := by
  simp [evalStream, Token.is_eof, h]

/-- A stream headed by an operator is rejected. -/
theorem evalStream_ops {t : Token} {rest : List Token} (h : t.is_ops = true) :
    evalStream (t :: rest) =
      some (Except.error (Error.with_message "Evaluated text must starts with integer!")) := by
  have hne : t._type ≠ TokType.Eof := by
    rcases is_ops_type.mp h with h2 | h2 | h2 | h2 <;> simp [h2]
  simp [evalStream, Token.is_eof, hne, h]

/-- A stream headed by an ordinary token parses it and enters the loop. -/
theorem evalStream_cons {t : Token} {rest : List Token}
    (h1 : t._type ≠ TokType.Eof) (h2 : t.is_ops = false) :
    evalStream (t :: rest) =
      match parse_number t with
      | Except.error e => some (Except.error e)
      | Except.ok v => evalLoop v rest := by
  simp [evalStream, Token.is_eof, h1, h2]

/-- The first operand of a chain starts the loop at its own value. -/
theorem evalStream_int {d0 : List Char} {rest : List Token} (h : IsDigitRun d0)
    (hle : (digitsNat d0 : Int) ≤ i64Max) :
    evalStream (intToken d0 :: rest) = evalLoop ((digitsNat d0 : Int)) rest := by
  rw [evalStream_cons (by simp [intToken]) (by simp [Token.is_ops, intToken])]
  rw [parse_number_intToken h hle]

/-- When scanning starts with a pending run, that run's token comes first. -/
theorem tokenizeGo_pending_head :
    ∀ (cs : List Char) (t : TokType) (val : List Char) (ts : List Token),
      tokenizeGo (some (t, val)) cs = some ts →
      ∃ v2 ts2, ts = { _type := t, value := some (String.mk v2) } :: ts2 := by
  intro cs
  induction cs with
  | nil =>
    intro t val ts h
    exact ⟨val, [], by simpa [tokenizeGo] using h.symm⟩
  | cons c rest ih =>
    intro t val ts h
    cases hdc : detect_char_type c with
    | none => simp [tokenizeGo, hdc] at h
    | some t2 =>
      by_cases heq : t2 = t
      · subst heq
        rw [tokenizeGo_step_extend hdc] at h
        exact ih t2 (val ++ [c]) ts h
      · by_cases hw : t2 = TokType.Whitespace
        · subst hw
          have hne : t ≠ TokType.Whitespace := fun hh => heq hh.symm
          rw [tokenizeGo_step_break_ws hdc hne] at h
          obtain ⟨ts2, _, rfl⟩ := Option.map_eq_some'.mp h
          exact ⟨val, ts2, rfl⟩
        · rw [tokenizeGo_step_break hdc heq hw] at h
          obtain ⟨ts2, _, rfl⟩ := Option.map_eq_some'.mp h
          exact ⟨val, ts2, rfl⟩

/-- Every run of a well-formed chain is well formed. -/
theorem chainRuns_ok {d0 : List Char} {ops : List (Op × List Char)}
    (h0 : IsDigitRun d0)
    (hops : ∀ p ∈ ops, IsDigitRun p.2) :
    ∀ pr ∈ chainRuns d0 ops, RunOK pr := by
  intro pr hpr
  rw [chainRuns] at hpr
  rcases List.mem_cons.mp hpr with rfl | hpr2
  · exact ⟨by simp, h0.1, by simp, fun c hc => detect_int_iff.mpr (h0.2 c hc)⟩
  rcases List.mem_append.mp hpr2 with hpr3 | hpr3
  · obtain ⟨grp, hgrp, hmem⟩ := List.mem_flatten.mp hpr3
    obtain ⟨p, hp, rfl⟩ := List.mem_map.mp hgrp
    have hpd : IsDigitRun p.2 := hops p hp
    rcases List.mem_cons.mp hmem with rfl | hmem2
    · refine ⟨by simp, by simp, ?_, ?_⟩
      · cases p.1 <;> simp [Op.tokType]
      · intro c hc
        simp only [List.mem_singleton] at hc
        subst hc
        cases p.1 <;> decide
    · rcases List.mem_cons.mp hmem2 with rfl | hmem3
      · exact ⟨by simp, hpd.1, by simp, fun c hc => detect_int_iff.mpr (hpd.2 c hc)⟩
      · simp at hmem3
  · simp only [List.mem_singleton] at hpr3
    subst hpr3
    exact ⟨by simp, by simp, by simp, fun c hc => by
      simp only [List.mem_singleton] at hc
      subst hc
      exact detect_newline⟩

/-- Adjacent runs of a chain always differ in class. -/
theorem chainRuns_adj :
    ∀ (ops : List (Op × List Char)) (d0 : List Char),
      adjDistinct (chainRuns d0 ops) = true := by
  intro ops
  induction ops with
  | nil =>
    intro d0
    simp [chainRuns, adjDistinct]
  | cons p ops ih =>
    obtain ⟨o, d⟩ := p
    intro d0
    have htail := ih d
    simp only [chainRuns, List.map_cons, List.flatten_cons, List.cons_append,
      List.append_assoc, List.nil_append] at htail ⊢
    rw [adjDistinct, adjDistinct, htail]
    cases o <;> simp [Op.tokType]

/-- Rendering the chain runs gives the chain text followed by a newline. -/
theorem chainRuns_render :
    ∀ (ops : List (Op × List Char)) (d0 : List Char),
      renderPadded (chainRuns d0 ops) [] = chainChars d0 ops ++ ['\n'] := by
  intro ops
  induction ops with
  | nil =>
    intro d0
    simp [chainRuns, renderPadded, chainChars]
  | cons p ops ih =>
    obtain ⟨o, d⟩ := p
    intro d0
    have htail := ih d
    simp only [chainRuns, List.map_cons, List.flatten_cons, List.cons_append,
      List.append_assoc, List.nil_append] at htail ⊢
    rw [renderPadded] at htail
    rw [renderPadded, renderPadded, renderPadded]
    simp only [List.nil_append] at htail ⊢
    rw [htail]
    simp [chainChars]

/-- The tokens of the chain runs are the chain's tokens plus a terminator. -/
theorem chainRuns_tokens :
    ∀ (ops : List (Op × List Char)) (d0 : List Char),
      (chainRuns d0 ops).map runToken =
        intToken d0 :: (chainOpTokens ops ++ [eofToken]) := by
  intro ops
  induction ops with
  | nil =>
    intro d0
    simp [chainRuns, runToken, intToken, eofToken, chainOpTokens]
  | cons p ops ih =>
    obtain ⟨o, d⟩ := p
    intro d0
    have htail := ih d
    simp only [chainRuns, List.map_cons, List.flatten_cons, List.cons_append,
      List.append_assoc, List.map_append, List.nil_append] at htail ⊢
    rw [List.cons.injEq] at htail
    simp only [chainOpTokens, List.map_cons, List.flatten_cons, List.cons_append]
    simp only [List.cons.injEq]
    refine ⟨rfl, rfl, rfl, ?_⟩
    have h2 := htail.2
    rw [chainOpTokens] at h2
    simpa using h2

/-- Evaluation factors through the token stream. -/
theorem evaluate_eq_evalStream {s : String} {ts : List Token}
    (h : tokenize s = some ts) : evaluate s = evalStream ts := by
  unfold evaluate
  rw [h]

/-- Evaluating a rendered, terminated chain computes the left-to-right fold
of the evaluator's arithmetic over its operands, provided every operand
parses into `i64` and no division has a zero right operand. -/
theorem evaluate_chain (d0 : List Char) (ops : List (Op × List Char))
    (h0 : IsDigitRun d0) (hle0 : (digitsNat d0 : Int) ≤ i64Max)
    (hops : ∀ p ∈ ops, IsDigitRun p.2 ∧ (digitsNat p.2 : Int) ≤ i64Max ∧
      (p.1 = Op.div → digitsNat p.2 ≠ 0)) :
    evaluate (String.mk (chainChars d0 ops ++ ['\n'])) =
      some (Except.ok (some (chainFold ((digitsNat d0 : Int)) ops))) := by
  have hrok : ∀ pr ∈ chainRuns d0 ops, RunOK pr :=
    chainRuns_ok h0 (fun p hp => (hops p hp).1)
  have htok : tokenize (String.mk (chainChars d0 ops ++ ['\n'])) =
      some (intToken d0 :: (chainOpTokens ops ++ [eofToken])) := by
    unfold tokenize
    rw [show (String.mk (chainChars d0 ops ++ ['\n'])).data =
      chainChars d0 ops ++ ['\n'] from rfl]
    rw [← chainRuns_render ops d0]
    rw [tokenizeGo_paddedRuns (chainRuns d0 ops) [] hrok (chainRuns_adj ops d0) (by simp)]
    rw [chainRuns_tokens ops d0]
  rw [evaluate_eq_evalStream htok, evalStream_int h0 hle0]
  exact evalLoop_chain ops _ [eofToken] hops (Or.inr ⟨eofToken, rfl, rfl⟩)

/-- C1: for every terminated chain of integer operands separated by the
operators `+ - * /` (operands parseable into `i64`, divisors nonzero),
`evaluate` reduces the chain strictly left-to-right with no operator
precedence: the result is the left fold of the evaluator's arithmetic over
the operands in reading order. In particular `evaluate "4/2*5+5-3\n"`
returns `Ok(Some(12))` (see the witness). -/
theorem c1_left_to_right_no_precedence (d0 : List Char) (ops : List (Op × List Char))
    (h0 : IsDigitRun d0) (hle0 : (digitsNat d0 : Int) ≤ i64Max)
    (hops : ∀ p ∈ ops, IsDigitRun p.2 ∧ (digitsNat p.2 : Int) ≤ i64Max ∧
      (p.1 = Op.div → digitsNat p.2 ≠ 0)) :
    evaluate (String.mk (chainChars d0 ops ++ ['\n'])) =
      some (Except.ok (some (chainFold ((digitsNat d0 : Int)) ops))) :=
  evaluate_chain d0 ops h0 hle0 hops

/-- Witness for C1 at the chain `4/2*5+5-3` terminated by a newline: the
left-to-right reduction `(((4/2)*5)+5)-3` gives `12`. -/
theorem c1_witness : evaluate "4/2*5+5-3\n" = some (Except.ok (some 12)) := by
  have h := c1_left_to_right_no_precedence ['4']
    [(Op.div, ['2']), (Op.mul, ['5']), (Op.plus, ['5']), (Op.minus, ['3'])]
    (by decide) (by decide) (by decide)
  exact h.trans (by decide)

/-- C2 counterexample: for `a = 9223372036854775807 = i64::MAX`, `b = 1`
and `op = +` (all representable in `i64`), `evaluate "<a>+<b>\n"` does not
return `Ok(Some(a + b))`: the 64-bit addition wraps around to `i64::MIN`
instead of producing `2^63`. -/
theorem c2_counterexample :
    evaluate "9223372036854775807+1\n" =
      some (Except.ok (some (-9223372036854775808))) ∧
    evaluate "9223372036854775807+1\n" ≠
      some (Except.ok (some (9223372036854775807 + 1))) := by
  constructor
  · decide
  · decide

/-- C2 (amended): for unsigned base-10 operands `a` and `b` representable
in `i64`, an operator `op` (with `b` nonzero when `op` is division), and
with `a op b` itself representable in `i64`, evaluating the terminated
string `"<a><op><b>\n"` returns `Ok(Some(a op b))` with truncating integer
division; multi-digit runs such as `"12"` are parsed as one operand. -/
theorem c2_single_operator (da db : List Char) (o : Op)
    (ha : IsDigitRun da) (hb : IsDigitRun db)
    (hlea : (digitsNat da : Int) ≤ i64Max) (hleb : (digitsNat db : Int) ≤ i64Max)
    (hdz : o = Op.div → digitsNat db ≠ 0)
    (hres1 : i64Min ≤ o.exactApply ((digitsNat da : Int)) ((digitsNat db : Int)))
    (hres2 : o.exactApply ((digitsNat da : Int)) ((digitsNat db : Int)) ≤ i64Max) :
    evaluate (String.mk (da ++ o.char :: db ++ ['\n'])) =
      some (Except.ok (some (o.exactApply ((digitsNat da : Int)) ((digitsNat db : Int))))) := by
  have h := evaluate_chain da [(o, db)] ha hlea
    (by
      intro p hp
      simp only [List.mem_singleton] at hp
      subst hp
      exact ⟨hb, hleb, hdz⟩)
  have hstr : chainChars da [(o, db)] ++ ['\n'] = da ++ o.char :: db ++ ['\n'] := by
    simp [chainChars]
  rw [hstr] at h
  rw [chainFold_one, wrapApply_eq_exactApply hres1 hres2] at h
  exact h

/-- Witness for C2 (amended) at `"12+2\n"`: multi-digit `12` is one operand
and the result is `14`. -/
theorem c2_witness : evaluate "12+2\n" = some (Except.ok (some 14)) := by
  have h := c2_single_operator ['1', '2'] ['2'] Op.plus
    (by decide) (by decide) (by decide) (by decide) (by decide) (by decide) (by decide)
  exact h.trans (by decide)

/-- C3 (code evaluated at the failing input): the scanner's maximal-run
grouping applies to operator characters too, so `"1++2"` produces a single
two-character `Plus` token with text `"++"` rather than two one-character
operator tokens, and the evaluator then computes `Ok(Some(3))` instead of
rejecting the malformed input. -/
theorem c3_adjacent_operators_collapse :
    tokenize "1++2" = some
      [{ _type := TokType.Integer, value := some "1" },
       { _type := TokType.Plus, value := some "++" },
       { _type := TokType.Integer, value := some "2" }] ∧
    evaluate "1++2" = some (Except.ok (some 3)) := by
  constructor
  · decide
  · decide

/-- C4 (code evaluated at the failing input): a character outside the
accepted alphabet makes `detect_char_type` panic (`none` in this model),
so `evaluate "1a"` aborts the process instead of returning an
`InvalidCharacter` error to the caller. -/
theorem c4_invalid_char_panics :
    detect_char_type 'a' = none ∧ evaluate "1a" = none := by
  constructor
  · decide
  · decide

/-- C5: an input consisting only of spaces and newlines (in particular the
empty input and the lone terminator) evaluates to `Ok(None)` — no result,
never an error and never a computed value. -/
theorem c5_blank_input (l : List Char) (h : ∀ c ∈ l, c = ' ' ∨ c = '\n') :
    evaluate (String.mk l) = some (Except.ok none) := by
  have hv : ∀ c ∈ l, ValidChar c := by
    intro c hc
    rcases h c hc with rfl | rfl <;> simp [ValidChar, detect_space, detect_newline]
  obtain ⟨ts, hts, _, hgood⟩ := tokenize_total hv
  rw [evaluate_eq_evalStream hts]
  cases ts with
  | nil => rfl
  | cons t rest =>
    obtain ⟨hnw, v, hval, hvne, hall⟩ := hgood t (by simp)
    have hteof : t._type = TokType.Eof := by
      cases v with
      | nil => exact absurd rfl hvne
      | cons c vr =>
        obtain ⟨hdet, hmem⟩ := hall c (by simp)
        rcases h c hmem with rfl | rfl
        · rw [detect_space] at hdet
          exact absurd (Option.some.inj hdet).symm hnw
        · rw [detect_newline] at hdet
          exact (Option.some.inj hdet).symm
    exact evalStream_eof hteof

/-- Witness for C5 at the whitespace-and-terminator input `" \n"`. -/
theorem c5_witness : evaluate (String.mk [' ', '\n']) = some (Except.ok none) :=
  c5_blank_input [' ', '\n'] (by decide)

/-- C6: on an input over the accepted alphabet whose token stream contains,
before the terminator, a division operator immediately followed by a zero
operand, `evaluate` returns an error and never a computed value: the zero
check precedes the division, so the division operation is never applied
with a zero right operand. -/
theorem c6_division_by_zero (l : List Char) (ts : List Token)
    (hv : ∀ c ∈ l, ValidChar c)
    (htok : tokenize (String.mk l) = some ts)
    (hdz : hasDivZero (preEof ts) = true) :
    ∃ e, evaluate (String.mk l) = some (Except.error e) := by
  obtain ⟨ts2, hts2, _, hgood⟩ := tokenize_total hv
  obtain rfl : ts = ts2 := Option.some.inj (htok.symm.trans hts2)
  have hsg : ∀ t ∈ ts, ∀ w : Int, parse_number t = Except.ok w → 0 ≤ w := by
    intro t ht w hw
    obtain ⟨_, v, hval, _, hall⟩ := hgood t ht
    exact (parse_number_good_nonneg hval (fun c hc => (hall c hc).1) hw).1
  rw [evaluate_eq_evalStream htok]
  cases ts with
  | nil => simp [preEof, hasDivZero] at hdz
  | cons t rest =>
    by_cases hteof : t._type = TokType.Eof
    · rw [preEof_cons_eof hteof] at hdz
      simp [hasDivZero] at hdz
    by_cases hops : t.is_ops = true
    · exact ⟨_, evalStream_ops hops⟩
    rw [Bool.not_eq_true] at hops
    rw [evalStream_cons hteof hops]
    rw [preEof_cons_ne hteof] at hdz
    cases hp : parse_number t with
    | error e => exact ⟨e, rfl⟩
    | ok w =>
      have htint : t._type = TokType.Integer := parse_number_ok_type hp
      have hdzr : hasDivZero (preEof rest) = true :=
        hasDivZero_cons_nondiv (by simp [htint]) hdz
      exact evalLoop_divZero rest.length rest w le_rfl
        (fun t2 ht2 w2 hw2 => hsg t2 (by simp [ht2]) w2 hw2) hdzr

/-- Witness for C6 at `"1/0"`: evaluation errors. -/
theorem c6_witness :
    ∃ e, evaluate (String.mk ['1', '/', '0']) = some (Except.error e) :=
  c6_division_by_zero ['1', '/', '0']
    [{ _type := TokType.Integer, value := some "1" },
     { _type := TokType.Div, value := some "/" },
     { _type := TokType.Integer, value := some "0" }]
    (by decide) (by decide) (by decide)

/-- C7: on an input over the accepted alphabet, if the token stream starts
with an operator, or the last token before the terminator is a dangling
operator, or two operand tokens are adjacent before the terminator, then
`evaluate` returns an error and never `Ok`. -/
theorem c7_malformed_input_errors (l : List Char) (ts : List Token)
    (hv : ∀ c ∈ l, ValidChar c)
    (htok : tokenize (String.mk l) = some ts)
    (hbad : (∃ t, ts.head? = some t ∧ t.is_ops = true) ∨
      (∃ op, (preEof ts).getLast? = some op ∧ op.is_ops = true) ∨
      hasIntInt (preEof ts) = true) :
    ∃ e, evaluate (String.mk l) = some (Except.error e) := by
  obtain ⟨ts2, hts2, _, hgood⟩ := tokenize_total hv
  obtain rfl : ts = ts2 := Option.some.inj (htok.symm.trans hts2)
  have hsg : ∀ t ∈ ts, ∀ w : Int, parse_number t = Except.ok w → 0 ≤ w := by
    intro t ht w hw
    obtain ⟨_, v, hval, _, hall⟩ := hgood t ht
    exact (parse_number_good_nonneg hval (fun c hc => (hall c hc).1) hw).1
  rw [evaluate_eq_evalStream htok]
  rcases hbad with ⟨t, hhead, hops⟩ | ⟨op, hlast, hops⟩ | hii
  · -- the stream starts with an operator
    cases ts with
    | nil => simp at hhead
    | cons t0 rest =>
      have ht0 : t0 = t := by simpa using hhead
      exact ⟨_, evalStream_ops (by rw [ht0]; exact hops)⟩
  · -- dangling operator at the end of the pre-terminator prefix
    cases ts with
    | nil => simp [preEof] at hlast
    | cons t0 rest =>
      by_cases hteof : t0._type = TokType.Eof
      · rw [preEof_cons_eof hteof] at hlast
        simp at hlast
      by_cases hops0 : t0.is_ops = true
      · exact ⟨_, evalStream_ops hops0⟩
      rw [Bool.not_eq_true] at hops0
      rw [evalStream_cons hteof hops0]
      rw [preEof_cons_ne hteof] at hlast
      cases hp : parse_number t0 with
      | error e => exact ⟨e, rfl⟩
      | ok w =>
        have htint : t0._type = TokType.Integer := parse_number_ok_type hp
        cases hpre : preEof rest with
        | nil =>
          rw [hpre] at hlast
          have heq : t0 = op := by simpa using hlast
          rw [← heq] at hops
          simp [Token.is_ops, htint] at hops
        | cons x lx =>
          rw [hpre, List.getLast?_cons_cons, ← hpre] at hlast
          exact evalLoop_dangling rest.length rest w op le_rfl
            (fun t2 ht2 w2 hw2 => hsg t2 (by simp [ht2]) w2 hw2) hlast hops
  · -- two adjacent operand tokens
    cases ts with
    | nil => simp [preEof, hasIntInt] at hii
    | cons t0 rest =>
      by_cases hteof : t0._type = TokType.Eof
      · rw [preEof_cons_eof hteof] at hii
        simp [hasIntInt] at hii
      by_cases hops0 : t0.is_ops = true
      · exact ⟨_, evalStream_ops hops0⟩
      rw [Bool.not_eq_true] at hops0
      rw [evalStream_cons hteof hops0]
      rw [preEof_cons_ne hteof] at hii
      cases hp : parse_number t0 with
      | error e => exact ⟨e, rfl⟩
      | ok w =>
        cases hpre : preEof rest with
        | nil =>
          rw [hpre] at hii
          simp [hasIntInt] at hii
        | cons x lx =>
          rw [hpre] at hii
          rw [hasIntInt] at hii
          simp only [Bool.or_eq_true, Bool.and_eq_true, beq_iff_eq] at hii
          rcases hii with ⟨_, hxint⟩ | h3
          · obtain ⟨rest3, hr2, hxne, _⟩ := preEof_eq_cons hpre
            subst hr2
            have hxops : x.is_ops = false := by simp [Token.is_ops, hxint]
            exact ⟨_, evalLoop_head_notops hxne hxops⟩
          · refine evalLoop_intInt rest.length rest w le_rfl
              (fun t2 ht2 w2 hw2 => hsg t2 (by simp [ht2]) w2 hw2) ?_
            rw [hpre]
            exact h3

/-- Witness for C7 at `"+12"` (leading operator), `"1+"` (dangling
operator) and `"1 1 +"` (adjacent operands): all three error. -/
theorem c7_witness :
    (∃ e, evaluate (String.mk ['+', '1', '2']) = some (Except.error e)) ∧
    (∃ e, evaluate (String.mk ['1', '+']) = some (Except.error e)) ∧
    (∃ e, evaluate (String.mk ['1', ' ', '1', ' ', '+']) = some (Except.error e)) := by
  refine ⟨?_, ?_, ?_⟩
  · exact c7_malformed_input_errors ['+', '1', '2']
      [{ _type := TokType.Plus, value := some "+" },
       { _type := TokType.Integer, value := some "12" }]
      (by decide) (by decide)
      (Or.inl ⟨{ _type := TokType.Plus, value := some "+" }, by decide, by decide⟩)
  · exact c7_malformed_input_errors ['1', '+']
      [{ _type := TokType.Integer, value := some "1" },
       { _type := TokType.Plus, value := some "+" }]
      (by decide) (by decide)
      (Or.inr (Or.inl ⟨{ _type := TokType.Plus, value := some "+" }, by decide, by decide⟩))
  · exact c7_malformed_input_errors ['1', ' ', '1', ' ', '+']
      [{ _type := TokType.Integer, value := some "1" },
       { _type := TokType.Integer, value := some "1" },
       { _type := TokType.Plus, value := some "+" }]
      (by decide) (by decide)
      (Or.inr (Or.inr (by decide)))

/-- Removing the paddings does not change which adjacent runs share a
class. -/
theorem adjDistinct_strip :
    ∀ l : List PaddedRun, adjDistinct (stripPads l) = adjDistinct l := by
  intro l
  induction l with
  | nil => rfl
  | cons a l2 ih =>
    obtain ⟨p, t, r⟩ := a
    cases l2 with
    | nil => rfl
    | cons b l3 =>
      obtain ⟨p2, t2, r2⟩ := b
      have e1 : adjDistinct (([], t, r) :: ([], t2, r2) :: stripPads l3) =
          ((t != t2) && adjDistinct (([], t2, r2) :: stripPads l3)) := by
        rw [adjDistinct]
      have e2 : adjDistinct ((p, t, r) :: (p2, t2, r2) :: l3) =
          ((t != t2) && adjDistinct ((p2, t2, r2) :: l3)) := by
        rw [adjDistinct]
      rw [show stripPads ((p, t, r) :: (p2, t2, r2) :: l3) =
        ([], t, r) :: ([], t2, r2) :: stripPads l3 from rfl, e1, e2]
      rw [show (([], t2, r2) :: stripPads l3 : List PaddedRun) =
        stripPads ((p2, t2, r2) :: l3) from rfl]
      rw [ih]

/-- C8: inserting or removing space padding before, after, or between the
runs that become the tokens does not change the outcome of `evaluate`: a
padded rendering of any well-formed run sequence evaluates exactly as its
unpadded rendering. -/
theorem c8_space_insensitive (l : List PaddedRun) (padEnd : List Char)
    (hok : ∀ pr ∈ l, RunOK pr) (hadj : adjDistinct l = true)
    (hpe : ∀ c ∈ padEnd, c = ' ') :
    evaluate (String.mk (renderPadded l padEnd)) =
      evaluate (String.mk (renderPadded (stripPads l) [])) := by
  have hok2 : ∀ pr ∈ stripPads l, RunOK pr := by
    intro pr hpr
    obtain ⟨q, hq, rfl⟩ := List.mem_map.mp hpr
    obtain ⟨_, h2, h3, h4⟩ := hok q hq
    exact ⟨by simp, h2, h3, h4⟩
  have hadj2 : adjDistinct (stripPads l) = true := by
    rw [adjDistinct_strip]
    exact hadj
  have ht1 : tokenize (String.mk (renderPadded l padEnd)) = some (l.map runToken) := by
    unfold tokenize
    rw [show (String.mk (renderPadded l padEnd)).data = renderPadded l padEnd from rfl]
    exact tokenizeGo_paddedRuns l padEnd hok hadj hpe
  have ht2 : tokenize (String.mk (renderPadded (stripPads l) [])) =
      some ((stripPads l).map runToken) := by
    unfold tokenize
    rw [show (String.mk (renderPadded (stripPads l) [])).data =
      renderPadded (stripPads l) [] from rfl]
    exact tokenizeGo_paddedRuns (stripPads l) [] hok2 hadj2 (by simp)
  have hmap : (stripPads l).map runToken = l.map runToken := by
    rw [stripPads, List.map_map]
    rfl
  rw [evaluate_eq_evalStream ht1, evaluate_eq_evalStream ht2, hmap]

/-- Witness for C8: `" 1 + 2 \n"` evaluates exactly as `"1+2\n"`. -/
theorem c8_witness :
    evaluate (String.mk [' ', '1', ' ', '+', ' ', '2', ' ', '\n']) =
      evaluate (String.mk ['1', '+', '2', '\n']) := by
  have h := c8_space_insensitive
    [([' '], TokType.Integer, ['1']), ([' '], TokType.Plus, ['+']),
     ([' '], TokType.Integer, ['2']), ([' '], TokType.Eof, ['\n'])]
    [] (by decide) (by decide) (by decide)
  exact h

/-- C9: scanning an input over the accepted alphabet succeeds, and
concatenating the texts of all produced tokens in stream order reproduces
the input with all space characters removed. -/
theorem c9_scan_roundtrip (l : List Char) (hv : ∀ c ∈ l, ValidChar c) :
    ∃ ts, tokenize (String.mk l) = some ts ∧
      joinTexts ts = l.filter (fun c => c != ' ') := by
  obtain ⟨ts, h1, h2, _⟩ := tokenize_total hv
  exact ⟨ts, h1, h2⟩

/-- Witness for C9 at `"1 + 23\n"`: the token texts concatenate to
`"1+23\n"`. -/
theorem c9_witness :
    ∃ ts, tokenize (String.mk ['1', ' ', '+', ' ', '2', '3', '\n']) = some ts ∧
      joinTexts ts = ['1', '+', '2', '3', '\n'] := by
  obtain ⟨ts, h1, h2⟩ := c9_scan_roundtrip ['1', ' ', '+', ' ', '2', '3', '\n'] (by decide)
  refine ⟨ts, h1, ?_⟩
  rw [h2]
  decide

/-- C10: text after the first line terminator never affects the result —
for a newline-free line over the accepted alphabet, appending a terminator
plus arbitrary further text over the alphabet evaluates exactly as the line
with the terminator alone, because the evaluator stops at the first
`EndOfInput` token. -/
theorem c10_text_after_terminator (l1 l2 : List Char)
    (hv1 : ∀ c ∈ l1, ValidChar c) (hn1 : '\n' ∉ l1)
    (hv2 : ∀ c ∈ l2, ValidChar c) :
    evaluate (String.mk (l1 ++ '\n' :: l2)) = evaluate (String.mk (l1 ++ ['\n'])) := by
  have hno1 : ∀ c ∈ l1, detect_char_type c ≠ some TokType.Eof := by
    intro c hc h
    exact hn1 (detect_eof_iff.mp h ▸ hc)
  obtain ⟨ts1, hts1, _, hgood1⟩ := tokenize_total hv1
  have hts1' : tokenizeGo none l1 = some ts1 := hts1
  have hsplit1 : tokenizeGo none (l1 ++ '\n' :: l2) =
      (tokenizeGo none ('\n' :: l2)).map (ts1 ++ ·) :=
    tokenizeGo_append l1.length l1 none ('\n' :: l2) ts1 le_rfl hno1 (Or.inl rfl)
      (Or.inr rfl) hts1'
  have hsplit2 : tokenizeGo none (l1 ++ ['\n']) =
      (tokenizeGo none ['\n']).map (ts1 ++ ·) :=
    tokenizeGo_append l1.length l1 none ['\n'] ts1 le_rfl hno1 (Or.inl rfl)
      (Or.inr rfl) hts1'
  obtain ⟨tsr, htsr, _, _⟩ := tokenizeGo_spec l2 (some (TokType.Eof, ['\n'])) hv2
    ⟨by decide, by decide, by decide⟩
  obtain ⟨v2, ts2, rfl⟩ := tokenizeGo_pending_head l2 TokType.Eof ['\n'] tsr htsr
  have htail : tokenizeGo none ('\n' :: l2) =
      some ({ _type := TokType.Eof, value := some (String.mk v2) } :: ts2) := by
    rw [tokenizeGo_step_start detect_newline (by decide)]
    exact htsr
  have he1 : tokenize (String.mk (l1 ++ '\n' :: l2)) =
      some (ts1 ++ ({ _type := TokType.Eof, value := some (String.mk v2) } :: ts2)) := by
    show tokenizeGo none (l1 ++ '\n' :: l2) = _
    rw [hsplit1, htail]
    rfl
  have he2 : tokenize (String.mk (l1 ++ ['\n'])) =
      some (ts1 ++ [{ _type := TokType.Eof, value := some (String.mk ['\n']) }]) := by
    show tokenizeGo none (l1 ++ ['\n']) = _
    rw [hsplit2]
    rfl
  rw [evaluate_eq_evalStream he1, evaluate_eq_evalStream he2]
  have hts1ne : ∀ t ∈ ts1, t._type ≠ TokType.Eof := by
    intro t ht h
    obtain ⟨_, v, _, hvne, hall⟩ := hgood1 t ht
    cases v with
    | nil => exact hvne rfl
    | cons c vr =>
      obtain ⟨hdet, hmem⟩ := hall c (by simp)
      rw [h] at hdet
      exact hn1 (detect_eof_iff.mp hdet ▸ hmem)
  cases ts1 with
  | nil =>
    simp only [List.nil_append]
    rw [evalStream_eof rfl, evalStream_eof rfl]
  | cons h1t rest1 =>
    have hteof : h1t._type ≠ TokType.Eof := hts1ne h1t (by simp)
    by_cases hops : h1t.is_ops = true
    · rw [List.cons_append, List.cons_append, evalStream_ops hops, evalStream_ops hops]
    · rw [Bool.not_eq_true] at hops
      rw [List.cons_append, List.cons_append,
        evalStream_cons hteof hops, evalStream_cons hteof hops]
      cases hp : parse_number h1t with
      | error e => rfl
      | ok w =>
        exact evalLoop_preEof_eq rest1.length rest1 w
          { _type := TokType.Eof, value := some (String.mk v2) }
          { _type := TokType.Eof, value := some (String.mk ['\n']) }
          ts2 [] le_rfl (fun t ht => hts1ne t (by simp [ht])) rfl rfl

/-- Witness for C10: `"1+2\n9+9"` evaluates exactly as `"1+2\n"`. -/
theorem c10_witness :
    evaluate (String.mk (['1', '+', '2'] ++ '\n' :: ['9', '+', '9'])) =
      evaluate (String.mk (['1', '+', '2'] ++ ['\n'])) :=
  c10_text_after_terminator ['1', '+', '2'] ['9', '+', '9']
    (by decide) (by decide) (by decide)
